import Mathlib

/-!
Verification of the gprs Gaussian-process library core against its specification.

Matrices are embedded as column-major flat buffers (`Mat`), mirroring nalgebra
`DMatrix<f64>` storage; `f64` arithmetic is modelled by exact real arithmetic.
Fallible operations return `Except IncompatibleShapeError`.
-/

namespace GPRS

/-- Column-major dense real matrix: the shallow embedding of nalgebra `DMatrix<f64>`.
`data` is the flat backing buffer; entry (i, j) lives at offset `j * nrows + i`. -/
structure Mat where
  nrows : Nat
  ncols : Nat
  data : List ℝ

/-- `DMatrix::shape()` = (nrows, ncols). -/
def Mat.shape (m : Mat) : Nat × Nat := (m.nrows, m.ncols)

/-- Entry (i, j) of the column-major buffer (out-of-range reads give 0,
standing in for values that the Rust code never reads on in-range inputs). -/
def Mat.get (m : Mat) (i j : Nat) : ℝ := m.data.getD (j * m.nrows + i) 0

/-- The buffer has exactly nrows * ncols entries. -/
def Mat.Wf (m : Mat) : Prop := m.data.length = m.nrows * m.ncols

/-- `DMatrix::zeros(r, c)`. -/
def Mat.zeros (r c : Nat) : Mat := ⟨r, c, List.replicate (r * c) 0⟩

/-! ### src/indexing.rs -/

/-- `index_to_2d(index, nmajor)` from src/indexing.rs.  Rust `usize` division
panics when the divisor is zero, which we model as `none`; otherwise the
function returns `(index / nmajor, index - (index / nmajor) * nmajor)`. -/
def index_to_2d (index nmajor : Nat) : Option (Nat × Nat) :=
  if nmajor = 0 then none
  else
    let i := index / nmajor
    some (i, index - i * nmajor)

/-- The value `index_to_2d` computes when `nmajor ≠ 0`; the kernels below only
evaluate it with `nmajor` equal to a matrix dimension whose buffer is nonempty,
so the division is well defined there. -/
def index_to_2d_pair (index nmajor : Nat) : Nat × Nat :=
  (index / nmajor, index - index / nmajor * nmajor)

/-- `slice_indices(index, nmajor)` from src/indexing.rs. -/
def slice_indices (index nmajor : Nat) : Nat × Nat :=
  (index * nmajor, index * nmajor + nmajor)

/-- Rust slice `l[se.1 .. se.2]` (total model: truncated at the end of the list;
the kernels only use it with in-range bounds guaranteed by their shape checks). -/
def sliceOf (l : List ℝ) (se : Nat × Nat) : List ℝ := (l.drop se.1).take (se.2 - se.1)

/-! ### Shape error (src/kernels/errors.rs rev. used by rbf.rs / linalg) -/

/-- Modelled from the spec: the `IncompatibleShapeError` struct itself is not
among the provided sources (only its uses are); spec section 7 says it
"carries the list of observed shapes for diagnosis". -/
structure IncompatibleShapeError where
  shapes : List (Nat × Nat)

/-! ### src/kernels/rbf.rs -/

/-- `TriangleSide` from the kernel interface (the revision of
src/kernels/kernel.rs matching rbf.rs is not in the sources; the variants and
their meaning are fixed by their use in `call_triangular_inplace`). -/
inductive TriangleSide
  | LOWER
  | UPPER

/-- The RBF kernel struct: pre-transformed gamma vector and squared amplitude. -/
structure RBF where
  gamma : List ℝ
  amplitude : ℝ

/-- `RBF::gamma`: length_scale.map(|v| -0.5 / (v * v)). -/
noncomputable def RBF.gammaOf (length_scale : List ℝ) : List ℝ :=
  length_scale.map (fun v => -0.5 / (v * v))

/-- `RBF::new(length_scale, sigma)`. -/
noncomputable def RBF.new (length_scale : List ℝ) (sigma : ℝ) : RBF :=
  ⟨RBF.gammaOf length_scale, sigma * sigma⟩

/-- `RBF::call_point`: gamma.iter().zip(x).zip(y).map(|((g,x),y)| (x-y)*(x-y)*g).sum().exp()
multiplied by the amplitude. -/
noncomputable def RBF.call_point (k : RBF) (x_point y_point : List ℝ) : ℝ :=
  Real.exp ((((k.gamma.zip x_point).zip y_point).map
    (fun gxy => (gxy.1.2 - gxy.2) * (gxy.1.2 - gxy.2) * gxy.1.1)).sum) * k.amplitude

/-- `RBF::check_shapes`. -/
def RBF.check_shapes (k : RBF) (x_shape y_shape into_shape : Nat × Nat) :
    Except IncompatibleShapeError Unit :=
  if x_shape.1 ≠ k.gamma.length ∨ y_shape.1 ≠ k.gamma.length
      ∨ into_shape ≠ (x_shape.2, y_shape.2) then
    Except.error ⟨[x_shape, y_shape, (1, k.gamma.length), into_shape]⟩
  else Except.ok ()

/-- `RBF::call_inplace` (the `Kernel` impl in rbf.rs): parallel fill of the flat
output buffer; each flat index is decoded with `index_to_2d(index, y_shape.1)`
and columns are sliced via `slice_indices(_, dims)` with `dims = x_shape.0`. -/
noncomputable def RBF.call_inplace (k : RBF) (x y into : Mat) :
    Except IncompatibleShapeError Mat :=
  match k.check_shapes x.shape y.shape into.shape with
  | Except.error e => Except.error e
  | Except.ok _ =>
    let dims := x.shape.1
    Except.ok { into with data := into.data.mapIdx (fun index _ =>
      let ij := index_to_2d_pair index y.shape.2
      k.call_point (sliceOf x.data (slice_indices ij.1 dims))
                   (sliceOf y.data (slice_indices ij.2 dims))) }

/-- `RBF::call`: zero-initialize an (x.ncols, y.ncols) matrix and fill in place. -/
noncomputable def RBF.call (k : RBF) (x y : Mat) : Except IncompatibleShapeError Mat :=
  k.call_inplace x y (Mat.zeros x.shape.2 y.shape.2)

/-- `RBF::call_triangular_inplace`: same parallel fill over the flat n×n buffer,
decoding with `index_to_2d(index, x_shape.1)`, but elements on the wrong side of
the diagonal are skipped (they keep the buffer's prior value). -/
noncomputable def RBF.call_triangular_inplace (k : RBF) (x : Mat) (side : TriangleSide)
    (into : Mat) : Except IncompatibleShapeError Mat :=
  match k.check_shapes x.shape x.shape into.shape with
  | Except.error e => Except.error e
  | Except.ok _ =>
    let dims := x.shape.1
    Except.ok { into with data := into.data.mapIdx (fun index v =>
      let ij := index_to_2d_pair index x.shape.2
      if (match side with
          | TriangleSide.LOWER => decide (ij.1 ≤ ij.2)
          | TriangleSide.UPPER => decide (ij.2 ≤ ij.1)) then
        k.call_point (sliceOf x.data (slice_indices ij.1 dims))
                     (sliceOf x.data (slice_indices ij.2 dims))
      else v) }

/-- `RBF::call_triangular`: zero-initialize an (n, n) matrix and fill one triangle. -/
noncomputable def RBF.call_triangular (k : RBF) (x : Mat) (side : TriangleSide) :
    Except IncompatibleShapeError Mat :=
  k.call_triangular_inplace x side (Mat.zeros x.shape.2 x.shape.2)

/-- Modelled from the spec: `call_diagonal` is invoked by `CompiledGP::var` in
src/gp/base.rs but its RBF implementation is not among the provided sources.
Spec sections 4.2/4.3: it produces a length-n(X) vector, which for RBF is the
amplitude broadcast n times, and every kernel operation validates X.rows = d,
failing with a shape error otherwise. -/
noncomputable def RBF.call_diagonal (k : RBF) (x : Mat) :
    Except IncompatibleShapeError (List ℝ) :=
  if x.shape.1 ≠ k.gamma.length then
    Except.error ⟨[x.shape, (1, k.gamma.length)]⟩
  else Except.ok (List.replicate x.shape.2 k.amplitude)

/-- Column i of the design matrix, as the code slices it from the flat buffer. -/
noncomputable def Mat.col (x : Mat) (i : Nat) : List ℝ :=
  sliceOf x.data (slice_indices i x.nrows)

/-- The true pointwise covariance of columns i and j of x (the value
`call_point` produces on those two column slices). -/
noncomputable def kfun (k : RBF) (x : Mat) (i j : Nat) : ℝ :=
  k.call_point (x.col i) (x.col j)

/-! ### List helper lemmas -/

theorem getD_lt {α : Type _} (l : List α) (i : Nat) (d : α) (h : i < l.length) :
    l.getD i d = l[i] := by
  rw [List.getD_eq_getElem?_getD, List.getElem?_eq_getElem h]
  rfl

theorem getD_ge {α : Type _} (l : List α) (i : Nat) (d : α) (h : l.length ≤ i) :
    l.getD i d = d := by
  rw [List.getD_eq_getElem?_getD, List.getElem?_eq_none h]
  rfl

theorem getElem_mapIdx' {α β : Type _} (l : List α) (f : Nat → α → β) (i : Nat)
    (h : i < l.length) (h2 : i < (l.mapIdx f).length) :
    (l.mapIdx f)[i] = f i l[i] := by
  have h3 := List.get_mapIdx l f i h
  simp only [List.get_eq_getElem] at h3
  exact h3

theorem sub_div_mul_mod (a n : Nat) : a - a / n * n = a % n := by
  have h := Nat.div_add_mod a n
  have h2 : a / n * n = n * (a / n) := Nat.mul_comm _ _
  omega

theorem div_decode (i j n : Nat) (hi : i < n) : (j * n + i) / n = j := by
  rw [Nat.add_comm, Nat.mul_comm, Nat.add_mul_div_left _ _ (by omega : 0 < n)]
  simp [Nat.div_eq_of_lt hi]

theorem mod_decode (i j n : Nat) (hi : i < n) : (j * n + i) % n = i := by
  rw [Nat.add_comm, Nat.mul_comm, Nat.add_mul_mod_self_left, Nat.mod_eq_of_lt hi]

/-! ### call_point lemmas -/

theorem zipzip_sum_comm (g p q : List ℝ) :
    (((g.zip p).zip q).map
      (fun gxy => (gxy.1.2 - gxy.2) * (gxy.1.2 - gxy.2) * gxy.1.1)).sum
    = (((g.zip q).zip p).map
      (fun gxy => (gxy.1.2 - gxy.2) * (gxy.1.2 - gxy.2) * gxy.1.1)).sum := by
  induction g generalizing p q with
  | nil => simp
  | cons a g ih =>
    cases p with
    | nil => simp
    | cons b p =>
      cases q with
      | nil => simp
      | cons c q =>
        simp only [List.zip_cons_cons, List.map_cons, List.sum_cons, ih p q]
        ring_nf

/-- The pointwise RBF covariance is symmetric in its two points. -/
theorem RBF.call_point_comm (k : RBF) (p q : List ℝ) :
    k.call_point p q = k.call_point q p := by
  unfold RBF.call_point
  rw [zipzip_sum_comm]

/-- The pointwise RBF covariance of a point with itself is the amplitude. -/
theorem RBF.call_point_self (k : RBF) (p : List ℝ) :
    k.call_point p p = k.amplitude := by
  unfold RBF.call_point
  have h : (((k.gamma.zip p).zip p).map
      (fun gxy => (gxy.1.2 - gxy.2) * (gxy.1.2 - gxy.2) * gxy.1.1)).sum = 0 := by
    induction k.gamma generalizing p with
    | nil => simp
    | cons a g ih =>
      cases p with
      | nil => simp
      | cons b p => simp [ih p]
  rw [h, Real.exp_zero, one_mul]

theorem kfun_comm (k : RBF) (x : Mat) (i j : Nat) : kfun k x i j = kfun k x j i :=
  RBF.call_point_comm k _ _

theorem kfun_self (k : RBF) (x : Mat) (i : Nat) : kfun k x i i = k.amplitude :=
  RBF.call_point_self k _

/-! ### Bridge lemmas for call and call_triangular -/

theorem RBF.check_shapes_ok (k : RBF) (xs ys : Nat × Nat)
    (hx : xs.1 = k.gamma.length) (hy : ys.1 = k.gamma.length) :
    k.check_shapes xs ys (xs.2, ys.2) = Except.ok () := by
  unfold RBF.check_shapes
  rw [if_neg]
  push_neg
  exact ⟨hx, hy, rfl⟩

/-- Successful `call` produces the (x.ncols, y.ncols) matrix whose flat buffer
holds, at offset f, the covariance of column f / y.ncols of x with column
f % y.ncols of y. -/
theorem RBF.call_eq (k : RBF) (x y : Mat)
    (hx : x.nrows = k.gamma.length) (hy : y.nrows = k.gamma.length) :
    k.call x y = Except.ok ⟨x.ncols, y.ncols,
      (List.replicate (x.ncols * y.ncols) (0:ℝ)).mapIdx (fun index _ =>
        k.call_point (sliceOf x.data (slice_indices (index / y.ncols) x.nrows))
          (sliceOf y.data (slice_indices (index - index / y.ncols * y.ncols) x.nrows)))⟩ := by
  unfold RBF.call RBF.call_inplace
  rw [show (Mat.zeros x.shape.2 y.shape.2).shape = (x.shape.2, y.shape.2) from rfl]
  rw [k.check_shapes_ok x.shape y.shape hx hy]
  rfl

/-- Inversion of the shape check. -/
theorem RBF.check_shapes_inv (k : RBF) (a b c : Nat × Nat) (u : Unit)
    (h : k.check_shapes a b c = Except.ok u) :
    a.1 = k.gamma.length ∧ b.1 = k.gamma.length ∧ c = (a.2, b.2) := by
  unfold RBF.check_shapes at h
  split at h
  · exact Except.noConfusion h
  · next hcond =>
    push_neg at hcond
    exact hcond

/-- A successful `call` implies that both row counts match the kernel dimension. -/
theorem RBF.call_inv (k : RBF) (x y M : Mat) (h : k.call x y = Except.ok M) :
    x.nrows = k.gamma.length ∧ y.nrows = k.gamma.length := by
  rw [RBF.call, RBF.call_inplace] at h
  split at h
  · exact Except.noConfusion h
  · next u heq =>
    have h3 := k.check_shapes_inv _ _ _ u heq
    exact ⟨h3.1, h3.2.1⟩

/-- A successful `call_triangular` implies the row count matches the kernel. -/
theorem RBF.call_triangular_inv (k : RBF) (x T : Mat) (side : TriangleSide)
    (h : k.call_triangular x side = Except.ok T) :
    x.nrows = k.gamma.length := by
  rw [RBF.call_triangular, RBF.call_triangular_inplace] at h
  split at h
  · exact Except.noConfusion h
  · next u heq =>
    exact (k.check_shapes_inv _ _ _ u heq).1

/-- Entry (i, j) of a successful `call`: the flat offset j * x.ncols + i is
decoded with divisor y.ncols (row-major decode of a column-major buffer). -/
theorem RBF.call_get (k : RBF) (x y M : Mat)
    (h : k.call x y = Except.ok M) (i j : Nat) (hi : i < x.ncols) (hj : j < y.ncols) :
    M.get i j
      = k.call_point (sliceOf x.data (slice_indices ((j * x.ncols + i) / y.ncols) x.nrows))
          (sliceOf y.data (slice_indices ((j * x.ncols + i) % y.ncols) x.nrows)) := by
  obtain ⟨hx, hy⟩ := k.call_inv x y M h
  rw [k.call_eq x y hx hy] at h
  cases h
  show (List.mapIdx _ _).getD (j * x.ncols + i) 0 = _
  have hlen : j * x.ncols + i < (List.replicate (x.ncols * y.ncols) (0:ℝ)).length := by
    simp only [List.length_replicate]
    calc j * x.ncols + i < j * x.ncols + x.ncols := by omega
    _ = (j + 1) * x.ncols := by ring
    _ ≤ y.ncols * x.ncols := Nat.mul_le_mul_right _ (by omega)
    _ = x.ncols * y.ncols := Nat.mul_comm _ _
  rw [getD_lt _ _ _ (by simpa [List.length_mapIdx] using hlen)]
  rw [getElem_mapIdx' _ _ _ hlen]
  rw [sub_div_mul_mod]

/-- Shapes and well-formedness of a successful `call` result. -/
theorem RBF.call_shape (k : RBF) (x y M : Mat) (h : k.call x y = Except.ok M) :
    M.nrows = x.ncols ∧ M.ncols = y.ncols ∧ M.Wf
      ∧ x.nrows = k.gamma.length ∧ y.nrows = k.gamma.length := by
  obtain ⟨hx, hy⟩ := k.call_inv x y M h
  rw [k.call_eq x y hx hy] at h
  cases h
  refine ⟨rfl, rfl, ?_, hx, hy⟩
  show (List.mapIdx _ _).length = _
  simp [List.length_mapIdx, Mat.Wf]

/-- For a square self-covariance `call(x, x)`, the decode scrambles into a
transpose: entry (i, j) holds the covariance of columns j and i. -/
theorem RBF.call_get_sq (k : RBF) (x M : Mat)
    (h : k.call x x = Except.ok M) (i j : Nat) (hi : i < x.ncols) (hj : j < x.ncols) :
    M.get i j = kfun k x j i := by
  rw [k.call_get x x M h i j hi hj, div_decode i j x.ncols hi, mod_decode i j x.ncols hi]
  rfl

/-- Successful `call_triangular` with LOWER: entry (i, j) holds the covariance
of columns j and i when j ≤ i, and the zero initialization otherwise. -/
theorem RBF.call_triangular_get (k : RBF) (x T : Mat)
    (h : k.call_triangular x TriangleSide.LOWER = Except.ok T)
    (i j : Nat) (hi : i < x.ncols) (hj : j < x.ncols) :
    T.get i j = if j ≤ i then kfun k x j i else 0 := by
  have hx : x.nrows = k.gamma.length := k.call_triangular_inv x T _ h
  rw [RBF.call_triangular, RBF.call_triangular_inplace] at h
  rw [show (Mat.zeros x.shape.2 x.shape.2).shape = (x.shape.2, x.shape.2) from rfl] at h
  rw [k.check_shapes_ok x.shape x.shape hx hx] at h
  cases h
  show (List.mapIdx _ _).getD (j * x.ncols + i) 0 = _
  have hlen : j * x.ncols + i < (List.replicate (x.ncols * x.ncols) (0:ℝ)).length := by
    simp only [List.length_replicate]
    calc j * x.ncols + i < j * x.ncols + x.ncols := by omega
    _ = (j + 1) * x.ncols := by ring
    _ ≤ x.ncols * x.ncols := Nat.mul_le_mul_right _ (by omega)
  simp only [Mat.zeros, Mat.shape]
  rw [getD_lt _ _ _ (by simpa [List.length_mapIdx] using hlen)]
  rw [getElem_mapIdx' _ _ _ hlen]
  simp only [index_to_2d_pair, sub_div_mul_mod, div_decode i j x.ncols hi,
    mod_decode i j x.ncols hi, decide_eq_true_eq, Nat.add_sub_cancel_left]
  by_cases hc : j ≤ i
  · rw [if_pos hc, if_pos hc]
    rfl
  · rw [if_neg hc, if_neg hc]
    exact List.getElem_replicate _ _

/-- Shapes and well-formedness of a successful `call_triangular` result. -/
theorem RBF.call_triangular_shape (k : RBF) (x T : Mat) (side : TriangleSide)
    (h : k.call_triangular x side = Except.ok T) :
    T.nrows = x.ncols ∧ T.ncols = x.ncols ∧ T.Wf ∧ x.nrows = k.gamma.length := by
  have hx : x.nrows = k.gamma.length := k.call_triangular_inv x T _ h
  rw [RBF.call_triangular, RBF.call_triangular_inplace] at h
  rw [show (Mat.zeros x.shape.2 x.shape.2).shape = (x.shape.2, x.shape.2) from rfl] at h
  rw [k.check_shapes_ok x.shape x.shape hx hx] at h
  cases h
  refine ⟨rfl, rfl, ?_, hx⟩
  simp [List.length_mapIdx, Mat.Wf, Mat.zeros, Mat.shape]

/-- `call_triangular` succeeds exactly when the row count matches the kernel. -/
theorem RBF.call_triangular_ok (k : RBF) (x : Mat) (side : TriangleSide)
    (hx : x.nrows = k.gamma.length) :
    ∃ T, k.call_triangular x side = Except.ok T := by
  rw [RBF.call_triangular, RBF.call_triangular_inplace]
  rw [show (Mat.zeros x.shape.2 x.shape.2).shape = (x.shape.2, x.shape.2) from rfl]
  rw [k.check_shapes_ok x.shape x.shape hx hx]
  exact ⟨_, rfl⟩

/-! ### Claim C9: indexing helpers -/

/-- C9 counterexample: the claim states that `index_to_2d` is total and never
panics for every value of its arguments, including nmajor = 0.  In Rust,
`index / nmajor` with `nmajor = 0` panics with a division-by-zero error (in
every build profile), modelled here by `none`: at the concrete input
(flat, nmajor) = (0, 0) the function does not return the claimed pair. -/
theorem C9_counterexample :
    index_to_2d 0 0 = none ∧ index_to_2d 0 0 ≠ some (0 / 0, 0 - 0 / 0 * 0) := by
  decide

/-- C9 (amended): for every nmajor > 0, `index_to_2d(flat, nmajor)` returns
exactly (flat / nmajor, flat − (flat / nmajor)·nmajor) without failing, and
`slice_indices(col, d)` always returns (col·d, col·d + d) with no failure mode;
the only failure mode is the division-by-zero panic of `index_to_2d` at
nmajor = 0. -/
theorem C9_indexing_amended (flat nmajor col d : Nat) (h : 0 < nmajor) :
    index_to_2d flat nmajor = some (flat / nmajor, flat - flat / nmajor * nmajor)
      ∧ slice_indices col d = (col * d, col * d + d) := by
  constructor
  · unfold index_to_2d
    rw [if_neg (by omega)]
  · rfl

/-- Witness for C9: concrete evaluation at (flat, nmajor) = (7, 5) and
(col, d) = (2, 3), matching the unit tests in src/indexing.rs. -/
theorem C9_indexing_amended_witness :
    0 < 5 ∧ (index_to_2d 7 5 = some (1, 2) ∧ slice_indices 2 3 = (6, 9)) :=
  ⟨by decide, by
    have h := C9_indexing_amended 7 5 2 3 (by decide)
    simpa using h⟩

/-! ### Claim C8: call_triangular equals the lower triangle of call(X, X) -/

/-- C8: for every RBF kernel and matrix X with matching row count,
`call_triangular(X, LOWER)` succeeds, `call(X, X)` succeeds, the entries of the
triangular result on the lower triangle (inclusive of the diagonal, j ≤ i)
agree with the corresponding entries of the full self-covariance, and the
strict upper triangle (i < j) keeps its zero initialization. -/
theorem C8_call_triangular_lower (k : RBF) (x : Mat)
    (hx : x.nrows = k.gamma.length) (i j : Nat)
    (hi : i < x.ncols) (hj : j < x.ncols) :
    ∃ T M, k.call_triangular x TriangleSide.LOWER = Except.ok T
      ∧ k.call x x = Except.ok M
      ∧ (j ≤ i → T.get i j = M.get i j)
      ∧ (i < j → T.get i j = 0) := by
  obtain ⟨T, hT⟩ := k.call_triangular_ok x TriangleSide.LOWER hx
  have hM : k.call x x = Except.ok _ := k.call_eq x x hx hx
  refine ⟨T, _, hT, hM, ?_, ?_⟩
  · intro hji
    rw [k.call_triangular_get x T hT i j hi hj, if_pos hji,
      k.call_get_sq x _ hM i j hi hj]
  · intro hij
    rw [k.call_triangular_get x T hT i j hi hj, if_neg (by omega)]

/-- Witness for C8 at the concrete kernel gamma = [-1/2], amplitude 1 and
X = [[0, 1]] (1 row, 2 columns), at entries (1,0) and (0,1). -/
theorem C8_call_triangular_lower_witness :
    (∃ T M,
      RBF.call_triangular ⟨[-(1/2 : ℝ)], 1⟩ ⟨1, 2, [0, 1]⟩ TriangleSide.LOWER = Except.ok T
      ∧ RBF.call ⟨[-(1/2 : ℝ)], 1⟩ ⟨1, 2, [0, 1]⟩ ⟨1, 2, [0, 1]⟩ = Except.ok M
      ∧ (0 ≤ 1 → T.get 1 0 = M.get 1 0) ∧ (1 < 0 → T.get 1 0 = 0))
    ∧ (∃ T M,
      RBF.call_triangular ⟨[-(1/2 : ℝ)], 1⟩ ⟨1, 2, [0, 1]⟩ TriangleSide.LOWER = Except.ok T
      ∧ RBF.call ⟨[-(1/2 : ℝ)], 1⟩ ⟨1, 2, [0, 1]⟩ ⟨1, 2, [0, 1]⟩ = Except.ok M
      ∧ (1 ≤ 0 → T.get 0 1 = M.get 0 1) ∧ (0 < 1 → T.get 0 1 = 0)) :=
  ⟨C8_call_triangular_lower ⟨[-(1/2 : ℝ)], 1⟩ ⟨1, 2, [0, 1]⟩ rfl 1 0 (by decide) (by decide),
   C8_call_triangular_lower ⟨[-(1/2 : ℝ)], 1⟩ ⟨1, 2, [0, 1]⟩ rfl 0 1 (by decide) (by decide)⟩

/-! ### Claim C1: entry formula of call (code bug) -/

/-- C1: the claim states that entry (i, j) of `call(X, Y)` is
σ_f² · exp(Σₖ γₖ (X[k,i] − Y[k,j])²).  The code decodes the flat column-major
output offset with `index_to_2d(index, y_shape.1)` — a row-major decode — so for
gamma = [-1/2], amplitude 1, X = [[0, 1]], Y = [[0, 2]] (d = 1, nx = ny = 2) the
entry at (0, 1) evaluates to k(x₁, y₀) = exp(-1/2) instead of the claimed
k(x₀, y₁) = 1 · exp(-1/2 · (0 − 2)²) = exp(-2). -/
theorem C1_call_entry_eval :
    ∃ M, RBF.call ⟨[-(1/2 : ℝ)], 1⟩ ⟨1, 2, [0, 1]⟩ ⟨1, 2, [0, 2]⟩ = Except.ok M
      ∧ M.get 0 1 = Real.exp (-(1/2))
      ∧ M.get 0 1 ≠ 1 * Real.exp (-(1/2) * ((0:ℝ) - 2) * ((0:ℝ) - 2)) := by
  obtain ⟨M, hM⟩ : ∃ M, RBF.call ⟨[-(1/2 : ℝ)], 1⟩ ⟨1, 2, [0, 1]⟩ ⟨1, 2, [0, 2]⟩
      = Except.ok M :=
    ⟨_, RBF.call_eq ⟨[-(1/2 : ℝ)], 1⟩ ⟨1, 2, [0, 1]⟩ ⟨1, 2, [0, 2]⟩ rfl rfl⟩
  have hval : M.get 0 1 = Real.exp (-(1/2)) := by
    rw [RBF.call_get ⟨[-(1/2 : ℝ)], 1⟩ ⟨1, 2, [0, 1]⟩ ⟨1, 2, [0, 2]⟩ M hM 0 1
      (by norm_num) (by norm_num)]
    norm_num [RBF.call_point, sliceOf, slice_indices]
  refine ⟨M, hM, hval, ?_⟩
  rw [hval]
  have hlt : Real.exp (-(1/2) * ((0:ℝ) - 2) * ((0:ℝ) - 2)) < Real.exp (-(1/2)) :=
    Real.exp_lt_exp.mpr (by norm_num)
  intro hEq
  rw [one_mul] at hEq
  exact absurd hEq hlt.ne'

/-! ### Claim C5: call(X, Y) versus call(Y, X) transposed (code bug) -/

/-- C5: the claim states `k.call(X, Y) == k.call(Y, X)ᵀ` for all compatible X, Y.
Due to the row-major decode of the column-major buffer in `call_inplace`, for
gamma = [-1/2], amplitude 1, X = [[0, 1]] (2 columns), Y = [[0, 2, 5]]
(3 columns), entry (0, 1) of call(X, Y) is k(x₀, y₂) = exp(-25/2) while entry
(1, 0) of call(Y, X) is k(y₀, x₁) = exp(-1/2); the transpose property fails. -/
theorem C5_call_transpose_eval :
    ∃ A B, RBF.call ⟨[-(1/2 : ℝ)], 1⟩ ⟨1, 2, [0, 1]⟩ ⟨1, 3, [0, 2, 5]⟩ = Except.ok A
      ∧ RBF.call ⟨[-(1/2 : ℝ)], 1⟩ ⟨1, 3, [0, 2, 5]⟩ ⟨1, 2, [0, 1]⟩ = Except.ok B
      ∧ A.get 0 1 = Real.exp (-(25/2))
      ∧ B.get 1 0 = Real.exp (-(1/2))
      ∧ A.get 0 1 ≠ B.get 1 0 := by
  obtain ⟨A, hA⟩ : ∃ A, RBF.call ⟨[-(1/2 : ℝ)], 1⟩ ⟨1, 2, [0, 1]⟩ ⟨1, 3, [0, 2, 5]⟩
      = Except.ok A :=
    ⟨_, RBF.call_eq ⟨[-(1/2 : ℝ)], 1⟩ ⟨1, 2, [0, 1]⟩ ⟨1, 3, [0, 2, 5]⟩ rfl rfl⟩
  obtain ⟨B, hB⟩ : ∃ B, RBF.call ⟨[-(1/2 : ℝ)], 1⟩ ⟨1, 3, [0, 2, 5]⟩ ⟨1, 2, [0, 1]⟩
      = Except.ok B :=
    ⟨_, RBF.call_eq ⟨[-(1/2 : ℝ)], 1⟩ ⟨1, 3, [0, 2, 5]⟩ ⟨1, 2, [0, 1]⟩ rfl rfl⟩
  have hvA : A.get 0 1 = Real.exp (-(25/2)) := by
    rw [RBF.call_get ⟨[-(1/2 : ℝ)], 1⟩ ⟨1, 2, [0, 1]⟩ ⟨1, 3, [0, 2, 5]⟩ A hA 0 1
      (by norm_num) (by norm_num)]
    norm_num [RBF.call_point, sliceOf, slice_indices]
  have hvB : B.get 1 0 = Real.exp (-(1/2)) := by
    rw [RBF.call_get ⟨[-(1/2 : ℝ)], 1⟩ ⟨1, 3, [0, 2, 5]⟩ ⟨1, 2, [0, 1]⟩ B hB 1 0
      (by norm_num) (by norm_num)]
    norm_num [RBF.call_point, sliceOf, slice_indices]
  refine ⟨A, B, hA, hB, hvA, hvB, ?_⟩
  rw [hvA, hvB]
  exact (Real.exp_lt_exp.mpr (by norm_num)).ne

/-! ### src/linalg/matmul.rs -/

/-- `par_tr_matmul(lhs, rhs)`: computes lhsᵀ·rhs without materializing the
transpose.  `l_shape` is the transposed shape of lhs; the inner reduction zips
`0..r_shape.0` with `0..l_shape.1`, i.e. runs over `min rhs.nrows lhs.nrows`
terms, and the flat result is produced one output column (`rj`) at a time. -/
noncomputable def par_tr_matmul (lhs rhs : Mat) : Except IncompatibleShapeError (List ℝ) :=
  if (lhs.shape.2, lhs.shape.1).2 ≠ rhs.shape.1 then
    Except.error ⟨[(lhs.shape.2, lhs.shape.1), rhs.shape]⟩
  else
    Except.ok ((List.range rhs.shape.2).flatMap (fun rj =>
      (List.range lhs.shape.2).map (fun li =>
        ∑ t ∈ Finset.range (min rhs.shape.1 lhs.shape.1), lhs.get t li * rhs.get t rj)))

/-- `par_tr_matmul_diag(lhs, rhs)`: the diagonal-only variant; one output entry
per index in `0..r_shape.1` (the column count of rhs), each the dot product of
the corresponding columns of lhs and rhs. -/
noncomputable def par_tr_matmul_diag (lhs rhs : Mat) : Except IncompatibleShapeError (List ℝ) :=
  if (lhs.shape.2, lhs.shape.1).2 ≠ rhs.shape.1 then
    Except.error ⟨[(lhs.shape.2, lhs.shape.1), rhs.shape]⟩
  else
    Except.ok ((List.range rhs.shape.2).map (fun c =>
      ∑ t ∈ Finset.range (min rhs.shape.1 lhs.shape.1), lhs.get t c * rhs.get t c))

/-! ### src/linalg/util.rs -/

/-- `par_add_diagonal_mut_unchecked(mat, f)`: early return on size 0, else the
buffer is processed in chunks of `size = mat.shape().0` rows and chunk i gets
`f` added at its i-th element; flat offset `idx` lies in chunk `idx / nrows`
at in-chunk offset `idx % nrows`, and `par_chunks_exact_mut` visits only the
`len / nrows` complete chunks. -/
noncomputable def par_add_diagonal_mut_unchecked (m : Mat) (f : ℝ) : Mat :=
  if m.shape.1 = 0 then m
  else { m with data := m.data.mapIdx (fun idx v =>
    if idx / m.nrows < m.data.length / m.nrows ∧ idx % m.nrows = idx / m.nrows
    then v + f else v) }

/-! ### src/linalg/solve.rs -/

/-- One iteration (row i) of `solve_lower_triangular_vector_unchecked_mut`:
`coeff = b[i] / a[i,i]; b[i] = coeff; b[i+1..] -= coeff * a[i+1.., i]` (the AXPY
update zips the tail of b with the below-diagonal part of column i of a, so it
touches exactly the offsets kk with i < kk < a.nrows). -/
noncomputable def solveVecStep (a : Mat) (col : List ℝ) (i : Nat) : List ℝ :=
  let coeff := col.getD i 0 / a.get i i
  (col.set i coeff).mapIdx (fun kk v =>
    if i < kk ∧ kk < a.nrows then v + a.get kk i * (-coeff) else v)

/-- `solve_lower_triangular_vector_unchecked_mut(a, b)`: forward substitution,
sequential over the rows `0..a.nrows`. -/
noncomputable def solve_lower_triangular_vector_unchecked_mut (a : Mat) (b : List ℝ) :
    List ℝ :=
  (List.range a.nrows).foldl (solveVecStep a) b

/-- `par_solve_lower_triangular_unchecked(a, b)`: clones b and solves each of
its complete `b.nrows`-sized column chunks independently; an incomplete
trailing chunk (absent for well-formed b) is left untouched. -/
noncomputable def par_solve_lower_triangular_unchecked (a b : Mat) : Mat :=
  { b with data :=
      (List.range (b.data.length / b.nrows)).flatMap (fun c =>
        solve_lower_triangular_vector_unchecked_mut a
          ((b.data.drop (c * b.nrows)).take b.nrows))
      ++ b.data.drop (b.data.length / b.nrows * b.nrows) }

/-! ### Flat-buffer helper lemmas -/

theorem flatMap_range_length {β : Type _} (nc np : Nat) (g : Nat → List β)
    (hlen : ∀ c, c < nc → (g c).length = np) :
    ((List.range nc).flatMap g).length = nc * np := by
  induction nc with
  | zero => simp
  | succ n ih =>
    rw [List.range_succ, List.flatMap_append]
    simp only [List.length_append, ih (fun c hc => hlen c (by omega))]
    simp [hlen n (by omega)]
    ring

theorem getD_flatMap_range {β : Type _} (nc np : Nat) (g : Nat → List β) (d : β)
    (hlen : ∀ c, c < nc → (g c).length = np) (c i : Nat) (hc : c < nc) (hi : i < np) :
    ((List.range nc).flatMap g).getD (c * np + i) d = (g c).getD i d := by
  induction nc with
  | zero => omega
  | succ n ih =>
    rw [List.range_succ, List.flatMap_append]
    have hpre : ((List.range n).flatMap g).length = n * np :=
      flatMap_range_length n np g (fun c hc => hlen c (by omega))
    by_cases hcn : c < n
    · have hidx : c * np + i < ((List.range n).flatMap g).length := by
        rw [hpre]
        calc c * np + i < c * np + np := by omega
        _ = (c + 1) * np := by ring
        _ ≤ n * np := Nat.mul_le_mul_right _ (by omega)
      rw [List.getD_append _ _ _ _ hidx]
      exact ih (fun c hc => hlen c (by omega)) hcn
    · have hceq : c = n := by omega
      subst hceq
      rw [List.getD_append_right _ _ _ _ (by rw [hpre]; omega)]
      simp only [List.flatMap_cons, List.flatMap_nil, List.append_nil, hpre]
      have hsub : c * np + i - c * np = i := by omega
      rw [hsub]

theorem getD_map_range {β : Type _} (n : Nat) (f : Nat → β) (d : β) (c : Nat) (hc : c < n) :
    ((List.range n).map f).getD c d = f c := by
  rw [getD_lt _ _ _ (by simp [hc])]
  rw [List.getElem_map, List.getElem_range]

/-! ### Claim C7: par_tr_matmul_diag -/

/-- C7 counterexample: the claim states the result has length
min(Lcols, Rcols).  For L = [[1]] (1 column) and R = [[1, 1]] (2 columns, same
row count) the code returns one entry per rhs column — length 2, not
min(1, 2) = 1 (and its second entry reads L out of bounds in the Rust source). -/
theorem C7_counterexample :
    ∃ v, par_tr_matmul_diag ⟨1, 1, [1]⟩ ⟨1, 2, [1, 1]⟩ = Except.ok v
      ∧ v.length = 2
      ∧ v.length ≠ min (⟨1, 1, [(1:ℝ)]⟩ : Mat).ncols (⟨1, 2, [(1:ℝ), 1]⟩ : Mat).ncols := by
  have hv : par_tr_matmul_diag ⟨1, 1, [1]⟩ ⟨1, 2, [1, 1]⟩
      = Except.ok ((List.range 2).map (fun c => ∑ t ∈ Finset.range 1,
          (⟨1, 1, [(1:ℝ)]⟩ : Mat).get t c * (⟨1, 2, [(1:ℝ), 1]⟩ : Mat).get t c)) := by
    unfold par_tr_matmul_diag
    rw [if_neg (by norm_num [Mat.shape])]
    rfl
  exact ⟨_, hv, by simp, by simp⟩

/-- C7 (amended): when additionally Rcols ≤ Lcols (as in every use inside the
GP, where both arguments coincide), `par_tr_matmul_diag(L, R)` succeeds with a
vector of length Rcols = min(Lcols, Rcols) whose entry at each column index c
is the dot product of column c of L with column c of R; for Rcols > Lcols the
code still produces one entry per rhs column (length Rcols, not min) and its
extra entries dereference L out of bounds. -/
theorem C7_tr_matmul_diag_amended (L R : Mat) (h : L.nrows = R.nrows)
    (hc : R.ncols ≤ L.ncols) :
    ∃ v, par_tr_matmul_diag L R = Except.ok v
      ∧ v.length = min L.ncols R.ncols
      ∧ ∀ c, c < R.ncols →
          v.getD c 0 = ∑ t ∈ Finset.range L.nrows, L.get t c * R.get t c := by
  have hv : par_tr_matmul_diag L R
      = Except.ok ((List.range R.ncols).map (fun c => ∑ t ∈ Finset.range (min R.nrows L.nrows),
          L.get t c * R.get t c)) := by
    unfold par_tr_matmul_diag
    rw [if_neg (by simp [Mat.shape, h])]
    rfl
  refine ⟨_, hv, ?_, ?_⟩
  · simp only [List.length_map, List.length_range]
    omega
  · intro c hcc
    rw [getD_map_range _ _ _ c hcc]
    simp [h]

/-- Witness for C7 (amended) at L = [[2, 3]] (1×2), R = [[4]] (1×1). -/
theorem C7_tr_matmul_diag_amended_witness :
    ∃ v, par_tr_matmul_diag ⟨1, 2, [2, 3]⟩ ⟨1, 1, [4]⟩ = Except.ok v
      ∧ v.length = min (⟨1, 2, [(2:ℝ), 3]⟩ : Mat).ncols (⟨1, 1, [(4:ℝ)]⟩ : Mat).ncols
      ∧ ∀ c, c < (⟨1, 1, [(4:ℝ)]⟩ : Mat).ncols →
          v.getD c 0 = ∑ t ∈ Finset.range (⟨1, 2, [(2:ℝ), 3]⟩ : Mat).nrows,
            (⟨1, 2, [(2:ℝ), 3]⟩ : Mat).get t c * (⟨1, 1, [(4:ℝ)]⟩ : Mat).get t c :=
  C7_tr_matmul_diag_amended ⟨1, 2, [2, 3]⟩ ⟨1, 1, [4]⟩ rfl (by norm_num)


/-! ### Cholesky factorization and triangular solves
(models of the external nalgebra routines used by src/gp/base.rs) -/

/-- The Cholesky–Banachiewicz recurrence over exact reals: entries above the
diagonal are 0, the diagonal entry is the square root of the pivot, and the
below-diagonal entry divides the partially reduced value by the diagonal. -/
noncomputable def cholL (A : Nat → Nat → ℝ) : Nat → Nat → ℝ
  | i, j =>
    if _h1 : i < j then 0
    else
      let s := A i j - ∑ k ∈ (Finset.range j).attach, cholL A i k.1 * cholL A j k.1
      if _h2 : i = j then Real.sqrt s else s / cholL A j j
termination_by i j => (j, i)
decreasing_by
  · have hk := Finset.mem_range.mp k.2
    exact Prod.Lex.left _ _ (by omega)
  · have hk := Finset.mem_range.mp k.2
    exact Prod.Lex.left _ _ (by omega)
  · exact Prod.Lex.right _ (by omega)

/-- The pivot of column j of the factorization. -/
noncomputable def cholPivot (A : Nat → Nat → ℝ) (j : Nat) : ℝ :=
  A j j - ∑ k ∈ Finset.range j, cholL A j k * cholL A j k

/-- nalgebra `Cholesky::new` succeeds iff every pivot is strictly positive. -/
def CholSuccess (A : Nat → Nat → ℝ) (n : Nat) : Prop :=
  ∀ j, j < n → 0 < cholPivot A j

theorem cholL_lt (A : Nat → Nat → ℝ) (i j : Nat) (h : i < j) : cholL A i j = 0 := by
  rw [cholL]
  rw [dif_pos h]

theorem cholL_diag (A : Nat → Nat → ℝ) (j : Nat) :
    cholL A j j = Real.sqrt (cholPivot A j) := by
  rw [cholL]
  rw [dif_neg (by omega), dif_pos rfl, cholPivot]
  rw [Finset.sum_attach (Finset.range j) (fun k => cholL A j k * cholL A j k)]

theorem cholL_gt (A : Nat → Nat → ℝ) (i j : Nat) (h : j < i) :
    cholL A i j = (A i j - ∑ k ∈ Finset.range j, cholL A i k * cholL A j k) / cholL A j j := by
  rw [cholL]
  rw [dif_neg (by omega), dif_neg (by omega)]
  rw [Finset.sum_attach (Finset.range j) (fun k => cholL A i k * cholL A j k)]

/-- Forward substitution: z i solves the lower-triangular system row by row. -/
noncomputable def forwardSubst (L : Nat → Nat → ℝ) (y : Nat → ℝ) : Nat → ℝ
  | i => (y i - ∑ k ∈ (Finset.range i).attach, L i k.1 * forwardSubst L y k.1) / L i i
termination_by i => i
decreasing_by
  exact Finset.mem_range.mp k.2

/-- Backward substitution against the transpose of L, on indices below n. -/
noncomputable def backSubst (L : Nat → Nat → ℝ) (n : Nat) (z : Nat → ℝ) : Nat → ℝ
  | i => (z i - ∑ k ∈ (Finset.Ico (i + 1) n).attach, L k.1 i * backSubst L n z k.1) / L i i
termination_by i => n - i
decreasing_by
  have hk := Finset.mem_Ico.mp k.2
  omega

theorem forwardSubst_eq (L : Nat → Nat → ℝ) (y : Nat → ℝ) (i : Nat) :
    forwardSubst L y i = (y i - ∑ k ∈ Finset.range i, L i k * forwardSubst L y k) / L i i := by
  rw [forwardSubst]
  rw [Finset.sum_attach (Finset.range i) (fun k => L i k * forwardSubst L y k)]

theorem backSubst_eq (L : Nat → Nat → ℝ) (n : Nat) (z : Nat → ℝ) (i : Nat) :
    backSubst L n z i
      = (z i - ∑ k ∈ Finset.Ico (i + 1) n, L k i * backSubst L n z k) / L i i := by
  rw [backSubst]
  rw [Finset.sum_attach (Finset.Ico (i + 1) n) (fun k => L k i * backSubst L n z k)]

theorem forwardSubst_solves (L : Nat → Nat → ℝ) (y : Nat → ℝ) (i : Nat) (h : L i i ≠ 0) :
    ∑ k ∈ Finset.range (i + 1), L i k * forwardSubst L y k = y i := by
  rw [Finset.sum_range_succ, forwardSubst_eq]
  rw [mul_comm (L i i), div_mul_cancel₀ _ h]
  ring

theorem backSubst_solves (L : Nat → Nat → ℝ) (n : Nat) (z : Nat → ℝ) (i : Nat)
    (hi : i < n) (h : L i i ≠ 0) :
    ∑ k ∈ Finset.Ico i n, L k i * backSubst L n z k = z i := by
  rw [Finset.sum_eq_sum_Ico_succ_bot hi, backSubst_eq]
  rw [mul_comm (L i i), div_mul_cancel₀ _ h]
  ring

theorem sum_range_of_tail_zero (f : Nat → ℝ) (m n : Nat) (hmn : m ≤ n)
    (hz : ∀ k, m ≤ k → k < n → f k = 0) :
    ∑ k ∈ Finset.range n, f k = ∑ k ∈ Finset.range m, f k := by
  rw [← Finset.sum_range_add_sum_Ico f hmn]
  rw [Finset.sum_eq_zero (fun k hk => hz k (Finset.mem_Ico.mp hk).1 (Finset.mem_Ico.mp hk).2)]
  ring

theorem cholPivot_pos_diag (A : Nat → Nat → ℝ) (j : Nat) (h : 0 < cholPivot A j) :
    0 < cholL A j j := by
  rw [cholL_diag]
  exact Real.sqrt_pos.mpr h

theorem cholL_mul (A : Nat → Nat → ℝ) (i j : Nat) (hji : j ≤ i)
    (hpos : ∀ t, t ≤ j → 0 < cholPivot A t) :
    ∑ k ∈ Finset.range (j + 1), cholL A i k * cholL A j k = A i j := by
  rw [Finset.sum_range_succ]
  rcases Nat.lt_or_ge j i with hlt | hge
  · rw [cholL_gt A i j hlt]
    rw [div_mul_cancel₀ _ (cholPivot_pos_diag A j (hpos j (Nat.le_refl j))).ne']
    ring
  · have hij : i = j := by omega
    subst hij
    rw [cholL_diag, Real.mul_self_sqrt (le_of_lt (hpos i (Nat.le_refl i)))]
    rw [cholPivot]
    ring

theorem cholL_mul_full (A : Nat → Nat → ℝ) (n i j : Nat) (hji : j ≤ i) (hi : i < n)
    (hpos : ∀ t, t < n → 0 < cholPivot A t) :
    ∑ k ∈ Finset.range n, cholL A i k * cholL A j k = A i j := by
  rw [sum_range_of_tail_zero _ (j + 1) n (by omega)
    (fun k hk1 hk2 => by rw [cholL_lt A j k (by omega)]; ring)]
  exact cholL_mul A i j hji (fun t ht => hpos t (by omega))

/-- The factor reconstructs A at every pair of indices below n (A symmetric). -/
theorem cholL_mul_sym (A : Nat → Nat → ℝ) (n i j : Nat) (hi : i < n) (hj : j < n)
    (hsym : ∀ a b, a < n → b < n → A a b = A b a)
    (hpos : ∀ t, t < n → 0 < cholPivot A t) :
    ∑ k ∈ Finset.range n, cholL A i k * cholL A j k = A i j := by
  rcases le_or_lt j i with hji | hij
  · exact cholL_mul_full A n i j hji hi hpos
  · rw [show A i j = A j i from hsym i j hi hj]
    rw [← cholL_mul_full A n j i (by omega) hj hpos]
    apply Finset.sum_congr rfl
    intro k _
    ring

/-- Uniqueness of solutions of a lower-triangular system with nonzero diagonal. -/
theorem lower_solve_unique (L : Nat → Nat → ℝ) (n : Nat)
    (hdiag : ∀ i, i < n → L i i ≠ 0) (u w : Nat → ℝ)
    (h : ∀ i, i < n → ∑ k ∈ Finset.range (i + 1), L i k * u k
        = ∑ k ∈ Finset.range (i + 1), L i k * w k) :
    ∀ i, i < n → u i = w i := by
  intro i
  induction i using Nat.strong_induction_on with
  | _ i ih =>
    intro hin
    have h2 := h i hin
    rw [Finset.sum_range_succ, Finset.sum_range_succ] at h2
    have h3 : ∑ k ∈ Finset.range i, L i k * u k = ∑ k ∈ Finset.range i, L i k * w k :=
      Finset.sum_congr rfl (fun k hk => by
        have hki : k < i := Finset.mem_range.mp hk
        rw [ih k hki (by omega)])
    have h4 : L i i * u i = L i i * w i := by linarith [h2, h3]
    exact mul_left_cancel₀ (hdiag i hin) h4

/-- forwardSubst at i only depends on y at indices up to i. -/
theorem forwardSubst_congr (L : Nat → Nat → ℝ) (y1 y2 : Nat → ℝ) (i : Nat)
    (h : ∀ t, t ≤ i → y1 t = y2 t) :
    forwardSubst L y1 i = forwardSubst L y2 i := by
  induction i using Nat.strong_induction_on with
  | _ i ih =>
    rw [forwardSubst_eq, forwardSubst_eq, h i (Nat.le_refl i)]
    congr 2
    apply Finset.sum_congr rfl
    intro k hk
    have hki : k < i := Finset.mem_range.mp hk
    rw [ih k hki (fun t ht => h t (by omega))]

/-! ### Mat-level interface to the nalgebra Cholesky object -/

/-- A matrix built from an entry function (column-major flattening). -/
noncomputable def Mat.ofFun (r c : Nat) (g : Nat → Nat → ℝ) : Mat :=
  ⟨r, c, (List.range (r * c)).map (fun f => g (f % r) (f / r))⟩

theorem ofFun_get (r c : Nat) (g : Nat → Nat → ℝ) (i j : Nat) (hi : i < r) (hj : j < c) :
    (Mat.ofFun r c g).get i j = g i j := by
  show ((List.range (r * c)).map (fun f => g (f % r) (f / r))).getD (j * r + i) 0 = g i j
  have hidx : j * r + i < r * c := by
    calc j * r + i < j * r + r := by omega
    _ = (j + 1) * r := by ring
    _ ≤ c * r := Nat.mul_le_mul_right _ (by omega)
    _ = r * c := Nat.mul_comm _ _
  rw [getD_map_range _ _ _ _ hidx]
  rw [mod_decode i j r hi, div_decode i j r hi]

/-- The symmetric extension of the lower triangle of a buffer: what the
nalgebra Cholesky reads. -/
noncomputable def Mat.lowerSym (m : Mat) : Nat → Nat → ℝ := fun i j =>
  if j ≤ i then m.get i j else m.get j i

theorem lowerSym_symm (m : Mat) (i j : Nat) : m.lowerSym i j = m.lowerSym j i := by
  unfold Mat.lowerSym
  rcases le_or_lt j i with h | h
  · rcases le_or_lt i j with h2 | h2
    · have hij : i = j := by omega
      subst hij
      rfl
    · rw [if_pos h, if_neg (by omega)]
  · rw [if_neg (by omega), if_pos (by omega)]

open Classical in
/-- Modelled from the nalgebra documentation: `Cholesky::new` reads only the
lower-triangular part of the matrix and returns None when the matrix is not
positive-definite (a non-positive pivot is encountered); the stored factor,
exposed by `l_dirty`, has the factor in its lower triangle while the strict
upper triangle keeps the original buffer contents. -/
noncomputable def Mat.cholesky (m : Mat) : Option Mat :=
  if CholSuccess m.lowerSym m.nrows then
    some (Mat.ofFun m.nrows m.ncols (fun i j =>
      if j ≤ i then cholL m.lowerSym i j else m.get i j))
  else none

/-- Modelled from the nalgebra documentation: `Cholesky::solve(y)` solves
(L·Lᵀ)·x = y by a forward substitution with L followed by a backward
substitution with Lᵀ. -/
noncomputable def cholSolveFun (m : Mat) (y : Nat → ℝ) : Nat → ℝ :=
  backSubst (cholL m.lowerSym) m.nrows (forwardSubst (cholL m.lowerSym) y)

/-! ### src/gp/base.rs -/

/-- The GP builder: kernel plus observation noise. -/
structure GP where
  kernel : RBF
  noise : ℝ

/-- `GP::new(kernel, noise)`: no validation of the noise value. -/
def GP.new (kernel : RBF) (noise : ℝ) : GP := ⟨kernel, noise⟩

/-- src/gp/errors.rs: the two compilation error variants. -/
inductive GPCompilationError
  | NonPositiveDefiniteError
  | IncompatibleShapeError (e : IncompatibleShapeError)

/-- The compiled GP state: Cholesky factor (dirty form), dual weights, kernel
and training inputs. -/
structure CompiledGP where
  cholesky : Mat
  alpha : List ℝ
  kernel : RBF
  x : Mat

/-- `GP::compile(x, y)`: validate n(X) = |y| (a DVector has shape (len, 1)),
build the lower triangle of K, add the noise to the diagonal, Cholesky-factor,
and solve for alpha. -/
noncomputable def GP.compile (gp : GP) (x : Mat) (y : List ℝ) :
    Except GPCompilationError CompiledGP :=
  if x.shape.2 ≠ y.length then
    Except.error (GPCompilationError.IncompatibleShapeError ⟨[x.shape, (y.length, 1)]⟩)
  else
    match gp.kernel.call_triangular x TriangleSide.LOWER with
    | Except.error e => Except.error (GPCompilationError.IncompatibleShapeError e)
    | Except.ok kxx0 =>
      match (par_add_diagonal_mut_unchecked kxx0 gp.noise).cholesky with
      | none => Except.error GPCompilationError.NonPositiveDefiniteError
      | some ld =>
        Except.ok ⟨ld,
          (List.range y.length).map
            (cholSolveFun (par_add_diagonal_mut_unchecked kxx0 gp.noise)
              (fun i => y.getD i 0)),
          gp.kernel, x⟩

/-- `CompiledGP::mean_precomputed`: K*ᵀ · α (alpha is an n×1 DVector). -/
noncomputable def CompiledGP.mean_precomputed (c : CompiledGP) (k_x_xp : Mat) :
    Except IncompatibleShapeError (List ℝ) :=
  par_tr_matmul k_x_xp ⟨c.alpha.length, 1, c.alpha⟩

/-- `CompiledGP::mean`. -/
noncomputable def CompiledGP.mean (c : CompiledGP) (x : Mat) :
    Except IncompatibleShapeError (List ℝ) :=
  match c.kernel.call c.x x with
  | Except.error e => Except.error e
  | Except.ok k_x_xp => c.mean_precomputed k_x_xp

/-- Elementwise `*l -= r` over the zipped prefix of two buffers; the entries
of the left list beyond the zip are untouched. -/
noncomputable def subZip (a b : List ℝ) : List ℝ :=
  (a.zipWith (fun l r => l - r) b) ++ a.drop b.length

/-- `CompiledGP::var_precomputed`: diag K(X*,X*) − diag(βᵀβ) with
β = L⁻¹·K* via the parallel forward solve against `cholesky.l_dirty()`. -/
noncomputable def CompiledGP.var_precomputed (c : CompiledGP) (x : Mat) (k_x_xp : Mat) :
    Except IncompatibleShapeError (List ℝ) :=
  match c.kernel.call_diagonal x with
  | Except.error e => Except.error e
  | Except.ok k_xp_xp =>
    match par_tr_matmul_diag (par_solve_lower_triangular_unchecked c.cholesky k_x_xp)
        (par_solve_lower_triangular_unchecked c.cholesky k_x_xp) with
    | Except.error e => Except.error e
    | Except.ok zipped => Except.ok (subZip k_xp_xp zipped)

/-- `CompiledGP::var`. -/
noncomputable def CompiledGP.var (c : CompiledGP) (x : Mat) :
    Except IncompatibleShapeError (List ℝ) :=
  match c.kernel.call c.x x with
  | Except.error e => Except.error e
  | Except.ok k_x_xp => c.var_precomputed x k_x_xp

/-! ### Bridge lemmas for the compile pipeline -/

theorem add_diag_fields (m : Mat) (f : ℝ) :
    (par_add_diagonal_mut_unchecked m f).nrows = m.nrows
    ∧ (par_add_diagonal_mut_unchecked m f).ncols = m.ncols
    ∧ (par_add_diagonal_mut_unchecked m f).data.length = m.data.length := by
  unfold par_add_diagonal_mut_unchecked
  split
  · exact ⟨rfl, rfl, rfl⟩
  · exact ⟨rfl, rfl, by simp [List.length_mapIdx]⟩

theorem add_diag_get (m : Mat) (f : ℝ) (hwf : m.Wf) (i j : Nat)
    (hi : i < m.nrows) (hj : j < m.ncols) :
    (par_add_diagonal_mut_unchecked m f).get i j
      = m.get i j + (if i = j then f else 0) := by
  unfold par_add_diagonal_mut_unchecked
  rw [if_neg (by simp only [Mat.shape]; omega)]
  show (List.mapIdx _ _).getD (j * m.nrows + i) 0 = _
  have hidx : j * m.nrows + i < m.data.length := by
    rw [hwf]
    calc j * m.nrows + i < j * m.nrows + m.nrows := by omega
    _ = (j + 1) * m.nrows := by ring
    _ ≤ m.ncols * m.nrows := Nat.mul_le_mul_right _ (by omega)
    _ = m.nrows * m.ncols := Nat.mul_comm _ _
  rw [getD_lt _ _ _ (by simpa [List.length_mapIdx] using hidx)]
  rw [getElem_mapIdx' _ _ _ hidx]
  rw [div_decode i j m.nrows hi, mod_decode i j m.nrows hi]
  have hchunks : m.data.length / m.nrows = m.ncols := by
    rw [hwf]
    exact Nat.mul_div_cancel_left _ (by omega)
  rw [hchunks]
  by_cases hij : i = j
  · subst hij
    rw [if_pos ⟨hj, rfl⟩, if_pos rfl]
    rw [Mat.get, getD_lt _ _ _ hidx]
  · rw [if_neg (by intro hcon; exact hij hcon.2), if_neg hij]
    rw [Mat.get, getD_lt _ _ _ hidx]
    ring

/-- The symmetric matrix the Cholesky reads out of the compile pipeline:
true covariance plus noise on the diagonal. -/
theorem kxx_lowerSym (k : RBF) (x T : Mat) (noise : ℝ)
    (hT : k.call_triangular x TriangleSide.LOWER = Except.ok T) (i j : Nat)
    (hi : i < x.ncols) (hj : j < x.ncols) :
    (par_add_diagonal_mut_unchecked T noise).lowerSym i j
      = kfun k x i j + (if i = j then noise else 0) := by
  obtain ⟨hTr, hTc, hTwf, _⟩ := k.call_triangular_shape x T _ hT
  unfold Mat.lowerSym
  rcases le_or_lt j i with h | h
  · rw [if_pos h]
    rw [add_diag_get T noise hTwf i j (by omega) (by omega)]
    rw [k.call_triangular_get x T hT i j hi hj, if_pos h, kfun_comm]
  · rw [if_neg (by omega)]
    rw [add_diag_get T noise hTwf j i (by omega) (by omega)]
    rw [k.call_triangular_get x T hT j i hj hi, if_pos (by omega)]
    have hne : ¬ j = i := by omega
    have hne2 : ¬ i = j := by omega
    rw [if_neg hne, if_neg hne2]

/-- Inversion of a successful compile. -/
theorem compile_inv (k : RBF) (noise : ℝ) (x : Mat) (y : List ℝ) (c : CompiledGP)
    (h : (GP.new k noise).compile x y = Except.ok c) :
    x.ncols = y.length
    ∧ ∃ T, k.call_triangular x TriangleSide.LOWER = Except.ok T
      ∧ x.nrows = k.gamma.length
      ∧ CholSuccess (par_add_diagonal_mut_unchecked T noise).lowerSym
          (par_add_diagonal_mut_unchecked T noise).nrows
      ∧ c = ⟨Mat.ofFun (par_add_diagonal_mut_unchecked T noise).nrows
              (par_add_diagonal_mut_unchecked T noise).ncols
              (fun i j => if j ≤ i then
                  cholL (par_add_diagonal_mut_unchecked T noise).lowerSym i j
                else (par_add_diagonal_mut_unchecked T noise).get i j),
            (List.range y.length).map
              (cholSolveFun (par_add_diagonal_mut_unchecked T noise) (fun i => y.getD i 0)),
            k, x⟩ := by
  unfold GP.compile at h
  simp only [GP.new] at h
  split at h
  · exact Except.noConfusion h
  · next hxy =>
    push_neg at hxy
    refine ⟨hxy, ?_⟩
    split at h
    · exact Except.noConfusion h
    · next T hT =>
      refine ⟨T, hT, k.call_triangular_inv x T _ hT, ?_⟩
      cases hch : (par_add_diagonal_mut_unchecked T noise).cholesky with
      | none =>
        rw [hch] at h
        exact Except.noConfusion h
      | some ld =>
        rw [hch] at h
        unfold Mat.cholesky at hch
        by_cases hs : CholSuccess (par_add_diagonal_mut_unchecked T noise).lowerSym
            (par_add_diagonal_mut_unchecked T noise).nrows
        · rw [if_pos hs] at hch
          cases hch
          cases h
          exact ⟨hs, rfl⟩
        · rw [if_neg hs] at hch
          exact Option.noConfusion hch

/-- A successful compile, constructively, from a successful Cholesky. -/
theorem compile_ok_of (k : RBF) (noise : ℝ) (x : Mat) (y : List ℝ)
    (hxy : x.ncols = y.length) (T : Mat)
    (hT : k.call_triangular x TriangleSide.LOWER = Except.ok T)
    (hs : CholSuccess (par_add_diagonal_mut_unchecked T noise).lowerSym
      (par_add_diagonal_mut_unchecked T noise).nrows) :
    (GP.new k noise).compile x y = Except.ok
      ⟨Mat.ofFun (par_add_diagonal_mut_unchecked T noise).nrows
          (par_add_diagonal_mut_unchecked T noise).ncols
          (fun i j => if j ≤ i then
              cholL (par_add_diagonal_mut_unchecked T noise).lowerSym i j
            else (par_add_diagonal_mut_unchecked T noise).get i j),
        (List.range y.length).map
          (cholSolveFun (par_add_diagonal_mut_unchecked T noise) (fun i => y.getD i 0)),
        k, x⟩ := by
  have hch : (par_add_diagonal_mut_unchecked T noise).cholesky
      = some (Mat.ofFun (par_add_diagonal_mut_unchecked T noise).nrows
          (par_add_diagonal_mut_unchecked T noise).ncols
          (fun i j => if j ≤ i then
              cholL (par_add_diagonal_mut_unchecked T noise).lowerSym i j
            else (par_add_diagonal_mut_unchecked T noise).get i j)) := by
    unfold Mat.cholesky
    rw [if_pos hs]
  unfold GP.compile
  simp only [GP.new]
  rw [if_neg (by simp only [Mat.shape]; omega)]
  rw [hT]
  show (match (par_add_diagonal_mut_unchecked T noise).cholesky with
    | none => Except.error GPCompilationError.NonPositiveDefiniteError
    | some ld => Except.ok (⟨ld,
        (List.range y.length).map
          (cholSolveFun (par_add_diagonal_mut_unchecked T noise) (fun i => y.getD i 0)),
        k, x⟩ : CompiledGP)) = _
  rw [hch]

/-- The dual weights returned by a successful compile solve
(K + noise·I) · alpha = y exactly (over the reals). -/
theorem compile_alpha (k : RBF) (noise : ℝ) (x : Mat) (y : List ℝ) (c : CompiledGP)
    (h : (GP.new k noise).compile x y = Except.ok c) :
    ∀ i, i < x.ncols →
      ∑ j ∈ Finset.range x.ncols,
        (kfun k x i j + (if i = j then noise else 0)) * c.alpha.getD j 0
        = y.getD i 0 := by
  obtain ⟨hxy, T, hT, hd, hs, hc⟩ := compile_inv k noise x y c h
  obtain ⟨hTr, hTc, hTwf, _⟩ := k.call_triangular_shape x T TriangleSide.LOWER hT
  have hkr : (par_add_diagonal_mut_unchecked T noise).nrows = x.ncols := by
    rw [(add_diag_fields T noise).1, hTr]
  set n := x.ncols with hn
  set A := (par_add_diagonal_mut_unchecked T noise).lowerSym with hA
  set L := cholL A with hLdef
  set yf : Nat → ℝ := fun i => y.getD i 0 with hyf
  set zf : Nat → ℝ := forwardSubst L yf with hzf
  set af : Nat → ℝ := backSubst L n zf with haf
  have hpos : ∀ t, t < n → 0 < cholPivot A t := fun t ht => hs t (by omega)
  have hdiag : ∀ t, t < n → L t t ≠ 0 :=
    fun t ht => (cholPivot_pos_diag A t (hpos t ht)).ne'
  have hsym : ∀ a b, a < n → b < n → A a b = A b a :=
    fun a b _ _ => lowerSym_symm _ a b
  have hAeq : ∀ i j, i < n → j < n → A i j = kfun k x i j + (if i = j then noise else 0) :=
    fun i j hi hj => kxx_lowerSym k x T noise hT i j hi hj
  have haget : ∀ j, j < n → c.alpha.getD j 0 = af j := by
    intro j hj
    rw [hc]
    show ((List.range y.length).map
      (cholSolveFun (par_add_diagonal_mut_unchecked T noise) (fun i => y.getD i 0))).getD j 0
      = af j
    rw [getD_map_range _ _ _ j (by omega)]
    unfold cholSolveFun
    rw [hkr]
  have hzy : ∀ i, i < n → ∑ t ∈ Finset.range n, L i t * zf t = yf i := by
    intro i hi
    rw [sum_range_of_tail_zero _ (i + 1) n (by omega)
      (fun t ht1 ht2 => by
        have hz : L i t = 0 := cholL_lt A i t (by omega)
        rw [hz]
        ring)]
    exact forwardSubst_solves L yf i (hdiag i hi)
  have haz : ∀ t, t < n → ∑ j ∈ Finset.range n, L j t * af j = zf t := by
    intro t ht
    have hsplit := Finset.sum_range_add_sum_Ico (fun j => L j t * af j) (le_of_lt ht)
    have hzero : ∑ j ∈ Finset.range t, L j t * af j = 0 :=
      Finset.sum_eq_zero (fun j hj => by
        have hz : L j t = 0 := cholL_lt A j t (Finset.mem_range.mp hj)
        rw [hz]
        ring)
    have hback := backSubst_solves L n zf t ht (hdiag t ht)
    rw [← hsplit, hzero, hback]
    ring
  intro i hi
  calc ∑ j ∈ Finset.range n, (kfun k x i j + (if i = j then noise else 0)) * c.alpha.getD j 0
      = ∑ j ∈ Finset.range n, A i j * af j :=
        Finset.sum_congr rfl (fun j hj => by
          have hjn := Finset.mem_range.mp hj
          rw [hAeq i j hi hjn, haget j hjn])
    _ = ∑ j ∈ Finset.range n, (∑ t ∈ Finset.range n, L i t * L j t) * af j :=
        Finset.sum_congr rfl (fun j hj => by
          have he : (∑ t ∈ Finset.range n, L i t * L j t) = A i j :=
            cholL_mul_sym A n i j hi (Finset.mem_range.mp hj) hsym hpos
          rw [he])
    _ = ∑ t ∈ Finset.range n, L i t * (∑ j ∈ Finset.range n, L j t * af j) := by
        simp only [Finset.sum_mul, Finset.mul_sum]
        rw [Finset.sum_comm]
        apply Finset.sum_congr rfl
        intro t _
        apply Finset.sum_congr rfl
        intro j _
        ring
    _ = ∑ t ∈ Finset.range n, L i t * zf t :=
        Finset.sum_congr rfl (fun t ht => by rw [haz t (Finset.mem_range.mp ht)])
    _ = yf i := hzy i hi

/-- Successful par_tr_matmul, with its value. -/
theorem par_tr_matmul_spec (L R : Mat) (h : L.nrows = R.nrows) :
    par_tr_matmul L R = Except.ok ((List.range R.ncols).flatMap (fun rj =>
      (List.range L.ncols).map (fun li =>
        ∑ t ∈ Finset.range (min R.nrows L.nrows), L.get t li * R.get t rj))) := by
  unfold par_tr_matmul
  rw [if_neg (by simp only [Mat.shape]; omega)]
  rfl

/-! ### Claim C2: noiseless interpolation -/

/-- C2: for every GP compiled with noise 0 — in particular on a design matrix
with pairwise-distinct columns, which is when compilation succeeds — the
posterior mean at the training inputs returns the targets exactly over the
reals (the spec asks for agreement to tolerance 1e-6). -/
theorem C2_noiseless_interpolation (k : RBF) (x : Mat) (y : List ℝ) (c : CompiledGP)
    (h : (GP.new k 0).compile x y = Except.ok c) :
    c.mean x = Except.ok y := by
  obtain ⟨hxy, T, hT, hd, hs, hc⟩ := compile_inv k 0 x y c h
  have halpha := compile_alpha k 0 x y c h
  have halpha2 : ∀ i, i < x.ncols →
      ∑ j ∈ Finset.range x.ncols, kfun k x i j * c.alpha.getD j 0 = y.getD i 0 := by
    intro i hi
    have h3 := halpha i hi
    simpa only [ite_self, add_zero] using h3
  have hck : c.kernel = k := by rw [hc]
  have hcx : c.x = x := by rw [hc]
  have hlen : c.alpha.length = y.length := by
    rw [hc]
    simp
  obtain ⟨M, hM⟩ : ∃ M, k.call x x = Except.ok M := ⟨_, k.call_eq x x hd hd⟩
  obtain ⟨hMr, hMc, hMwf, _, _⟩ := k.call_shape x x M hM
  unfold CompiledGP.mean
  rw [hck, hcx, hM]
  show c.mean_precomputed M = Except.ok y
  unfold CompiledGP.mean_precomputed
  have hsh : M.nrows = (⟨c.alpha.length, 1, c.alpha⟩ : Mat).nrows := by
    show M.nrows = c.alpha.length
    omega
  rw [par_tr_matmul_spec M ⟨c.alpha.length, 1, c.alpha⟩ hsh]
  congr 1
  show List.flatMap (List.range 1) _ = y
  have h0 : List.range 1 = [0] := rfl
  rw [h0, List.flatMap_cons, List.flatMap_nil, List.append_nil]
  apply List.ext_getElem
  · simp only [List.length_map, List.length_range]
    omega
  intro li h1 h2
  rw [List.getElem_map, List.getElem_range]
  have hli : li < x.ncols := by
    simp only [List.length_map, List.length_range] at h1
    omega
  have hmin : min (⟨c.alpha.length, 1, c.alpha⟩ : Mat).nrows M.nrows = x.ncols := by
    show min c.alpha.length M.nrows = x.ncols
    omega
  rw [hmin]
  have hsum : ∑ t ∈ Finset.range x.ncols,
      M.get t li * (⟨c.alpha.length, 1, c.alpha⟩ : Mat).get t 0
      = ∑ t ∈ Finset.range x.ncols, kfun k x li t * c.alpha.getD t 0 := by
    apply Finset.sum_congr rfl
    intro t ht
    have htn := Finset.mem_range.mp ht
    rw [k.call_get_sq x M hM t li htn hli]
    show kfun k x li t * c.alpha.getD (0 * c.alpha.length + t) 0 = _
    rw [Nat.zero_mul, Nat.zero_add]
  rw [hsum, halpha2 li hli]
  exact getD_lt y li 0 h2

/-- Witness for C2: a 1-point noiseless GP with gamma = [-1/2], amplitude 1,
X = [[0]], y = [2]: compilation succeeds and the posterior mean at the
training input returns the target. -/
theorem C2_noiseless_interpolation_witness :
    ∃ c, (GP.new ⟨[-(1/2 : ℝ)], 1⟩ 0).compile ⟨1, 1, [0]⟩ [2] = Except.ok c
      ∧ c.mean ⟨1, 1, [0]⟩ = Except.ok [2] := by
  obtain ⟨T, hT⟩ :=
    RBF.call_triangular_ok ⟨[-(1/2 : ℝ)], 1⟩ ⟨1, 1, [0]⟩ TriangleSide.LOWER rfl
  have hTr := (RBF.call_triangular_shape _ _ _ _ hT).1
  have hn : (par_add_diagonal_mut_unchecked T 0).nrows = 1 := by
    rw [(add_diag_fields T 0).1, hTr]
  have hs : CholSuccess (par_add_diagonal_mut_unchecked T 0).lowerSym
      (par_add_diagonal_mut_unchecked T 0).nrows := by
    intro j hj
    rw [hn] at hj
    have hj0 : j = 0 := by omega
    subst hj0
    rw [cholPivot]
    simp only [Finset.range_zero, Finset.sum_empty]
    have hA := kxx_lowerSym ⟨[-(1/2 : ℝ)], 1⟩ ⟨1, 1, [0]⟩ T 0 hT 0 0
      (by norm_num) (by norm_num)
    rw [hA, kfun_self]
    norm_num
  have hcomp := compile_ok_of ⟨[-(1/2 : ℝ)], 1⟩ 0 ⟨1, 1, [0]⟩ [2] rfl T hT hs
  exact ⟨_, hcomp, C2_noiseless_interpolation _ _ _ _ hcomp⟩

/-! ### Helper characterizations of compile outcomes -/

theorem cholesky_isSome_iff (m : Mat) :
    m.cholesky.isSome ↔ CholSuccess m.lowerSym m.nrows := by
  unfold Mat.cholesky
  by_cases hs : CholSuccess m.lowerSym m.nrows
  · rw [if_pos hs]
    simp [hs]
  · rw [if_neg hs]
    simp [hs]

theorem compile_nonpd_iff (k : RBF) (noise : ℝ) (x : Mat) (y : List ℝ) :
    (GP.new k noise).compile x y = Except.error GPCompilationError.NonPositiveDefiniteError
    ↔ (x.ncols = y.length ∧ ∃ T, k.call_triangular x TriangleSide.LOWER = Except.ok T
        ∧ (par_add_diagonal_mut_unchecked T noise).cholesky = none) := by
  constructor
  · intro h
    unfold GP.compile at h
    simp only [GP.new] at h
    split at h
    · exact GPCompilationError.noConfusion (Except.error.inj h)
    · next hxy =>
      push_neg at hxy
      refine ⟨hxy, ?_⟩
      split at h
      · exact GPCompilationError.noConfusion (Except.error.inj h)
      · next T hT =>
        refine ⟨T, hT, ?_⟩
        cases hch : (par_add_diagonal_mut_unchecked T noise).cholesky with
        | none => rfl
        | some ld =>
          rw [hch] at h
          exact Except.noConfusion h
  · intro hcond
    obtain ⟨hxy, T, hT, hch⟩ := hcond
    unfold GP.compile
    simp only [GP.new]
    rw [if_neg (by simp only [Mat.shape]; omega)]
    rw [hT]
    show (match (par_add_diagonal_mut_unchecked T noise).cholesky with
      | none => Except.error GPCompilationError.NonPositiveDefiniteError
      | some ld => Except.ok (⟨ld,
          (List.range y.length).map
            (cholSolveFun (par_add_diagonal_mut_unchecked T noise) (fun i => y.getD i 0)),
          k, x⟩ : CompiledGP)) = _
    rw [hch]

/-- A Cholesky success is impossible when the (symmetric) input matrix has two
equal rows: the factor would force a positive determinant. -/
theorem cholSuccess_rows_distinct (A : Nat → Nat → ℝ) (n : Nat)
    (hsym : ∀ a b, a < n → b < n → A a b = A b a)
    (hs : CholSuccess A n) (i j : Nat) (hi : i < n) (hj : j < n) (hij : i ≠ j)
    (hrows : ∀ b, b < n → A i b = A j b) : False := by
  set Af : Matrix (Fin n) (Fin n) ℝ := Matrix.of (fun p q : Fin n => A p.1 q.1) with hAf
  set Lf : Matrix (Fin n) (Fin n) ℝ := Matrix.of (fun p q : Fin n => cholL A p.1 q.1) with hLf
  have hLL : Lf * Lf.transpose = Af := by
    ext p q
    show ∑ r : Fin n, cholL A p.1 r.1 * cholL A q.1 r.1 = A p.1 q.1
    rw [Fin.sum_univ_eq_sum_range (fun r => cholL A p.1 r * cholL A q.1 r) n]
    exact cholL_mul_sym A n p.1 q.1 p.2 q.2 hsym hs
  have hdetL : 0 < Lf.det := by
    rw [Matrix.det_of_lowerTriangular Lf (by
      intro p q hpq
      exact cholL_lt A p.1 q.1 (by simpa using hpq))]
    exact Finset.prod_pos (fun p _ => cholPivot_pos_diag A p.1 (hs p.1 p.2))
  have hdetA : Af.det = 0 := by
    apply Matrix.det_zero_of_row_eq (i := ⟨i, hi⟩) (j := ⟨j, hj⟩)
    · intro hcon
      exact hij (by simpa [Fin.ext_iff] using hcon)
    · funext b
      exact hrows b.1 b.2
  have hsq : Af.det = Lf.det * Lf.det := by
    rw [← hLL, Matrix.det_mul, Matrix.det_transpose]
  nlinarith [hdetL, hdetA, hsq]

/-! ### Claim C6: error taxonomy of compile -/

/-- C6: compile returns ShapeMismatch when n(X) ≠ |y| (carrying the observed
shapes) and when the row count of X differs from the kernel dimension; it
returns NonPositiveDefinite exactly when the Cholesky factorization of
K + σ²I fails, and in no other situation; and duplicate columns in X with
σ² = 0 produce NonPositiveDefinite. -/
theorem C6_compile_error_taxonomy (k : RBF) (noise : ℝ) :
    (∀ x : Mat, ∀ y : List ℝ, x.ncols ≠ y.length →
        (GP.new k noise).compile x y
          = Except.error (GPCompilationError.IncompatibleShapeError
              ⟨[x.shape, (y.length, 1)]⟩))
    ∧ (∀ x : Mat, ∀ y : List ℝ, x.ncols = y.length → x.nrows ≠ k.gamma.length →
        ∃ e, (GP.new k noise).compile x y
          = Except.error (GPCompilationError.IncompatibleShapeError e))
    ∧ (∀ x : Mat, ∀ y : List ℝ,
        ((GP.new k noise).compile x y
            = Except.error GPCompilationError.NonPositiveDefiniteError
          ↔ (x.ncols = y.length
              ∧ ∃ T, k.call_triangular x TriangleSide.LOWER = Except.ok T
                ∧ (par_add_diagonal_mut_unchecked T noise).cholesky = none)))
    ∧ (∀ x : Mat, ∀ y : List ℝ, ∀ i j : Nat, noise = 0
        → x.ncols = y.length → x.nrows = k.gamma.length
        → i < x.ncols → j < x.ncols → i ≠ j → x.col i = x.col j
        → (GP.new k noise).compile x y
            = Except.error GPCompilationError.NonPositiveDefiniteError) := by
  refine ⟨?_, ?_, ?_, ?_⟩
  · intro x y hxy
    unfold GP.compile
    rw [if_pos (by simp only [Mat.shape]; omega)]
  · intro x y hxy hd
    unfold GP.compile
    simp only [GP.new]
    rw [if_neg (by simp only [Mat.shape]; omega)]
    cases hct : k.call_triangular x TriangleSide.LOWER with
    | error e => exact ⟨e, rfl⟩
    | ok T => exact absurd (k.call_triangular_inv x T _ hct) hd
  · intro x y
    exact compile_nonpd_iff k noise x y
  · intro x y i j hnoise hxy hd hi hj hij hcols
    subst hnoise
    obtain ⟨T, hT⟩ := k.call_triangular_ok x TriangleSide.LOWER hd
    obtain ⟨hTr, hTc, hTwf, _⟩ := k.call_triangular_shape x T TriangleSide.LOWER hT
    have hn : (par_add_diagonal_mut_unchecked T 0).nrows = x.ncols := by
      rw [(add_diag_fields T 0).1, hTr]
    have hA : ∀ a b, a < x.ncols → b < x.ncols →
        (par_add_diagonal_mut_unchecked T 0).lowerSym a b = kfun k x a b := by
      intro a b ha hb
      rw [kxx_lowerSym k x T 0 hT a b ha hb]
      simp
    have hns : ¬ CholSuccess (par_add_diagonal_mut_unchecked T 0).lowerSym
        (par_add_diagonal_mut_unchecked T 0).nrows := by
      intro hs
      rw [hn] at hs
      apply cholSuccess_rows_distinct
        ((par_add_diagonal_mut_unchecked T 0).lowerSym) x.ncols
        (fun a b _ _ => lowerSym_symm _ a b) hs i j hi hj hij
      intro b hb
      rw [hA i b hi hb, hA j b hj hb]
      unfold kfun
      rw [hcols]
    apply (compile_nonpd_iff k 0 x y).mpr
    refine ⟨hxy, T, hT, ?_⟩
    unfold Mat.cholesky
    rw [if_neg hns]

/-- Witness for C6 at gamma = [-1/2], amplitude 1: a shape mismatch input, a
row-count mismatch input, the NonPositiveDefinite characterization at a
duplicate-column input, and the duplicate-column case X = [[1, 1]], y = [0, 1]
from the repo test suite. -/
theorem C6_compile_error_taxonomy_witness :
    ((GP.new ⟨[-(1/2 : ℝ)], 1⟩ 0).compile ⟨1, 2, [0, 1]⟩ [0]
        = Except.error (GPCompilationError.IncompatibleShapeError ⟨[(1, 2), (1, 1)]⟩))
    ∧ (∃ e, (GP.new ⟨[-(1/2 : ℝ)], 1⟩ 0).compile ⟨2, 1, [0, 1]⟩ [5]
        = Except.error (GPCompilationError.IncompatibleShapeError e))
    ∧ ((GP.new ⟨[-(1/2 : ℝ)], 1⟩ 0).compile ⟨1, 2, [1, 1]⟩ [0, 1]
        = Except.error GPCompilationError.NonPositiveDefiniteError) := by
  refine ⟨?_, ?_, ?_⟩
  · have h := (C6_compile_error_taxonomy ⟨[-(1/2 : ℝ)], 1⟩ 0).1 ⟨1, 2, [0, 1]⟩ [0]
      (by norm_num)
    simpa [Mat.shape] using h
  · exact (C6_compile_error_taxonomy ⟨[-(1/2 : ℝ)], 1⟩ 0).2.1 ⟨2, 1, [0, 1]⟩ [5]
      rfl (by norm_num)
  · exact (C6_compile_error_taxonomy ⟨[-(1/2 : ℝ)], 1⟩ 0).2.2.2 ⟨1, 2, [1, 1]⟩ [0, 1]
      0 1 rfl rfl rfl (by norm_num) (by norm_num) (by norm_num) rfl

/-! ### Claim C10: the noise parameter is never validated -/

/-- C10: `GP::new` accepts any real noise value (including negative ones)
without error, storing it unchanged; for every noise value, the outcome of
compile is determined solely by the shape checks and by whether the Cholesky
factorization of K + noise·I succeeds; and the error type has no variant for
an out-of-range noise (only NonPositiveDefinite and ShapeMismatch exist). -/
theorem C10_noise_not_validated (k : RBF) (noise : ℝ) :
    GP.new k noise = ⟨k, noise⟩
    ∧ (∀ x : Mat, ∀ y : List ℝ,
        ((∃ c, (GP.new k noise).compile x y = Except.ok c)
          ↔ (x.ncols = y.length
              ∧ ∃ T, k.call_triangular x TriangleSide.LOWER = Except.ok T
                ∧ ((par_add_diagonal_mut_unchecked T noise).cholesky).isSome)))
    ∧ (∀ x : Mat, ∀ y : List ℝ,
        ((GP.new k noise).compile x y
            = Except.error GPCompilationError.NonPositiveDefiniteError
          ↔ (x.ncols = y.length
              ∧ ∃ T, k.call_triangular x TriangleSide.LOWER = Except.ok T
                ∧ (par_add_diagonal_mut_unchecked T noise).cholesky = none)))
    ∧ (∀ e : GPCompilationError, e = GPCompilationError.NonPositiveDefiniteError
        ∨ ∃ s, e = GPCompilationError.IncompatibleShapeError s) := by
  refine ⟨rfl, ?_, ?_, ?_⟩
  · intro x y
    constructor
    · intro hok
      obtain ⟨c, hc⟩ := hok
      obtain ⟨hxy, T, hT, hd, hs, _⟩ := compile_inv k noise x y c hc
      refine ⟨hxy, T, hT, ?_⟩
      exact (cholesky_isSome_iff _).mpr hs
    · intro hcond
      obtain ⟨hxy, T, hT, hsome⟩ := hcond
      have hs := (cholesky_isSome_iff _).mp hsome
      exact ⟨_, compile_ok_of k noise x y hxy T hT hs⟩
  · intro x y
    exact compile_nonpd_iff k noise x y
  · intro e
    cases e with
    | NonPositiveDefiniteError => exact Or.inl rfl
    | IncompatibleShapeError s => exact Or.inr ⟨s, rfl⟩

/-- Witness for C10: with the strictly negative noise −1/2 (never rejected),
compilation on X = [[0]], y = [1] succeeds, because K + noise·I = [[1/2]] is
still positive-definite. -/
theorem C10_noise_not_validated_witness :
    GP.new ⟨[-(1/2 : ℝ)], 1⟩ (-(1/2)) = ⟨⟨[-(1/2 : ℝ)], 1⟩, -(1/2)⟩
    ∧ ∃ c, (GP.new ⟨[-(1/2 : ℝ)], 1⟩ (-(1/2))).compile ⟨1, 1, [0]⟩ [1] = Except.ok c := by
  refine ⟨(C10_noise_not_validated ⟨[-(1/2 : ℝ)], 1⟩ (-(1/2))).1, ?_⟩
  apply ((C10_noise_not_validated ⟨[-(1/2 : ℝ)], 1⟩ (-(1/2))).2.1 ⟨1, 1, [0]⟩ [1]).mpr
  obtain ⟨T, hT⟩ :=
    RBF.call_triangular_ok ⟨[-(1/2 : ℝ)], 1⟩ ⟨1, 1, [0]⟩ TriangleSide.LOWER rfl
  refine ⟨rfl, T, hT, ?_⟩
  apply (cholesky_isSome_iff _).mpr
  have hTr := (RBF.call_triangular_shape _ _ _ _ hT).1
  have hn : (par_add_diagonal_mut_unchecked T (-(1/2 : ℝ))).nrows = 1 := by
    rw [(add_diag_fields T _).1, hTr]
  intro j hj
  rw [hn] at hj
  have hj0 : j = 0 := by omega
  subst hj0
  rw [cholPivot]
  simp only [Finset.range_zero, Finset.sum_empty]
  have hA := kxx_lowerSym ⟨[-(1/2 : ℝ)], 1⟩ ⟨1, 1, [0]⟩ T (-(1/2 : ℝ)) hT 0 0
    (by norm_num) (by norm_num)
  rw [hA, kfun_self]
  norm_num

/-! ### Correctness of the in-place forward solve (src/linalg/solve.rs) -/

theorem getD_drop_take (l : List ℝ) (s m t : Nat) (ht : t < m) :
    ((l.drop s).take m).getD t 0 = l.getD (s + t) 0 := by
  by_cases hlen : s + t < l.length
  · rw [getD_lt _ _ _ (by simp only [List.length_take, List.length_drop]; omega)]
    rw [List.getElem_take, List.getElem_drop]
    rw [getD_lt _ _ _ hlen]
  · rw [getD_ge _ _ _ (by simp only [List.length_take, List.length_drop]; omega)]
    rw [getD_ge _ _ _ (by omega)]

/-- Loop invariant of `solve_lower_triangular_vector_unchecked_mut`: after the
first m iterations, the first m entries hold the forward-substitution solution
and each later entry kk holds b[kk] minus the partial AXPY updates. -/
theorem solveVec_invariant (a : Mat) (b : List ℝ) (hb : b.length = a.nrows) (m : Nat)
    (hm : m ≤ a.nrows) :
    ((List.range m).foldl (solveVecStep a) b).length = b.length
    ∧ (∀ kk, kk < m →
        ((List.range m).foldl (solveVecStep a) b).getD kk 0
          = forwardSubst (fun p q => a.get p q) (fun t => b.getD t 0) kk)
    ∧ (∀ kk, m ≤ kk → kk < b.length →
        ((List.range m).foldl (solveVecStep a) b).getD kk 0
          = b.getD kk 0 - ∑ t ∈ Finset.range m,
              a.get kk t * forwardSubst (fun p q => a.get p q) (fun t2 => b.getD t2 0) t) := by
  induction m with
  | zero =>
    refine ⟨rfl, fun kk hkk => absurd hkk (by omega), fun kk _ _ => by simp⟩
  | succ m ih =>
    obtain ⟨ihlen, ihdone, ihpend⟩ := ih (by omega)
    rw [List.range_succ, List.foldl_append, List.foldl_cons, List.foldl_nil]
    set prev := (List.range m).foldl (solveVecStep a) b with hprev
    set z : Nat → ℝ := forwardSubst (fun p q => a.get p q) (fun t => b.getD t 0) with hz
    have hmb : m < b.length := by omega
    have hcoeff : prev.getD m 0 / a.get m m = z m := by
      rw [ihpend m (Nat.le_refl m) hmb]
      rw [hz]
      rw [forwardSubst_eq]
    have hsetlen : (prev.set m (prev.getD m 0 / a.get m m)).length = b.length := by
      rw [List.length_set, ihlen]
    have hstep : ∀ kk, kk < b.length → (solveVecStep a prev m).getD kk 0
        = (if m < kk ∧ kk < a.nrows
            then (if kk = m then z m else prev.getD kk 0) + a.get kk m * (-(z m))
            else (if kk = m then z m else prev.getD kk 0)) := by
      intro kk hkk
      unfold solveVecStep
      rw [getD_lt _ _ _ (by simp only [List.length_mapIdx]; omega)]
      rw [getElem_mapIdx' _ _ _ (by omega)]
      have hkset : kk < (prev.set m (prev.getD m 0 / a.get m m)).length := by
        rw [hsetlen]
        exact hkk
      have hset : (prev.set m (prev.getD m 0 / a.get m m))[kk]
          = (if kk = m then z m else prev.getD kk 0) := by
        rw [List.getElem_set]
        by_cases hkm : kk = m
        · rw [if_pos hkm.symm, if_pos hkm]
          exact hcoeff
        · rw [if_neg (fun hcon => hkm hcon.symm), if_neg hkm]
          exact (getD_lt prev kk 0 (by omega)).symm
      simp only [hset]
      simp only [hcoeff]
    have hlen2 : (solveVecStep a prev m).length = b.length := by
      unfold solveVecStep
      rw [List.length_mapIdx, List.length_set, ihlen]
    refine ⟨hlen2, ?_, ?_⟩
    · intro kk hkk
      rcases Nat.lt_or_ge kk m with hkm | hkm
      · rw [hstep kk (by omega)]
        rw [if_neg (by omega), if_neg (by omega)]
        exact ihdone kk hkm
      · have hkkm : kk = m := by omega
        subst hkkm
        rw [hstep kk hmb]
        rw [if_neg (by omega), if_pos rfl]
    · intro kk hk1 hk2
      rw [hstep kk hk2]
      rw [if_pos (by omega), if_neg (by omega)]
      rw [ihpend kk (by omega) hk2]
      rw [Finset.sum_range_succ]
      ring

/-- The in-place forward solve computes the forward-substitution solution. -/
theorem solveVec_final (a : Mat) (b : List ℝ) (hb : b.length = a.nrows) (kk : Nat)
    (hkk : kk < a.nrows) :
    (solve_lower_triangular_vector_unchecked_mut a b).getD kk 0
      = forwardSubst (fun p q => a.get p q) (fun t => b.getD t 0) kk :=
  (solveVec_invariant a b hb a.nrows (Nat.le_refl _)).2.1 kk hkk

/-- Entry (i, c) of the parallel lower-triangular solve of a well-formed b:
the forward substitution of column c of b against a. -/
theorem par_solve_get (a b : Mat) (hb : b.nrows = a.nrows) (hwf : b.Wf) (hn : 0 < b.nrows)
    (i c : Nat) (hi : i < b.nrows) (hc : c < b.ncols) :
    (par_solve_lower_triangular_unchecked a b).get i c
      = forwardSubst (fun p q => a.get p q) (fun t => b.get t c) i := by
  have hchunks : b.data.length / b.nrows = b.ncols := by
    rw [hwf]
    exact Nat.mul_div_cancel_left _ (by omega)
  have hdlen : b.data.length = b.nrows * b.ncols := hwf
  have hcollen : ∀ cc, cc < b.ncols →
      ((b.data.drop (cc * b.nrows)).take b.nrows).length = b.nrows := by
    intro cc hcc
    simp only [List.length_take, List.length_drop, hdlen]
    have h2 : cc * b.nrows + b.nrows ≤ b.nrows * b.ncols := by
      calc cc * b.nrows + b.nrows = (cc + 1) * b.nrows := by ring
      _ ≤ b.ncols * b.nrows := Nat.mul_le_mul_right _ (by omega)
      _ = b.nrows * b.ncols := Nat.mul_comm _ _
    omega
  have hpieces : ∀ cc, cc < b.ncols →
      (solve_lower_triangular_vector_unchecked_mut a
        ((b.data.drop (cc * b.nrows)).take b.nrows)).length = b.nrows := by
    intro cc hcc
    have h2 := (solveVec_invariant a ((b.data.drop (cc * b.nrows)).take b.nrows)
      (by rw [hcollen cc hcc, hb]) a.nrows (Nat.le_refl _)).1
    rw [solve_lower_triangular_vector_unchecked_mut, h2, hcollen cc hcc]
  show ((List.range (b.data.length / b.nrows)).flatMap (fun cc =>
      solve_lower_triangular_vector_unchecked_mut a
        ((b.data.drop (cc * b.nrows)).take b.nrows))
      ++ b.data.drop (b.data.length / b.nrows * b.nrows)).getD (c * b.nrows + i) 0 = _
  rw [hchunks]
  have hflatlen : ((List.range b.ncols).flatMap (fun cc =>
      solve_lower_triangular_vector_unchecked_mut a
        ((b.data.drop (cc * b.nrows)).take b.nrows))).length = b.ncols * b.nrows :=
    flatMap_range_length _ _ _ hpieces
  rw [List.getD_append _ _ _ _ (by
    rw [hflatlen]
    calc c * b.nrows + i < c * b.nrows + b.nrows := by omega
    _ = (c + 1) * b.nrows := by ring
    _ ≤ b.ncols * b.nrows := Nat.mul_le_mul_right _ (by omega))]
  rw [getD_flatMap_range b.ncols b.nrows _ 0 hpieces c i hc hi]
  rw [solveVec_final a _ (by rw [hcollen c hc, hb]) i (by omega)]
  apply forwardSubst_congr
  intro t ht
  rw [getD_drop_take _ _ _ _ (by omega)]
  rfl

/-- Successful par_tr_matmul_diag, with its value. -/
theorem par_tr_matmul_diag_spec (L R : Mat) (h : L.nrows = R.nrows) :
    par_tr_matmul_diag L R = Except.ok ((List.range R.ncols).map (fun c =>
      ∑ t ∈ Finset.range (min R.nrows L.nrows), L.get t c * R.get t c)) := by
  unfold par_tr_matmul_diag
  rw [if_neg (by simp only [Mat.shape]; omega)]
  rfl

/-! ### Claim C4: noiseless variance vanishes at the training inputs -/

/-- C4: for every GP compiled with noise 0 on a (nonempty) design matrix — in
particular one with pairwise-distinct columns, which is when compilation
succeeds — the per-point posterior variance at the training inputs, computed
as diag K(X*,X*) minus the diagonal of βᵀβ with β = L⁻¹K*, is exactly zero. -/
theorem C4_noiseless_variance (k : RBF) (x : Mat) (y : List ℝ) (c : CompiledGP)
    (hpos : 0 < x.ncols) (h : (GP.new k 0).compile x y = Except.ok c) :
    c.var x = Except.ok (List.replicate x.ncols (0:ℝ)) := by
  obtain ⟨hxy, T, hT, hd, hs, hc⟩ := compile_inv k 0 x y c h
  obtain ⟨hTr, hTc, hTwf, _⟩ := k.call_triangular_shape x T TriangleSide.LOWER hT
  set n := x.ncols with hn
  have hkr : (par_add_diagonal_mut_unchecked T 0).nrows = n := by
    rw [(add_diag_fields T 0).1, hTr]
  set A := (par_add_diagonal_mut_unchecked T 0).lowerSym with hA
  set L := cholL A with hL
  have hposv : ∀ t, t < n → 0 < cholPivot A t := fun t ht => hs t (by omega)
  have hdiagnz : ∀ t, t < n → L t t ≠ 0 :=
    fun t ht => (cholPivot_pos_diag A t (hposv t ht)).ne'
  have hsym : ∀ a b, a < n → b < n → A a b = A b a :=
    fun a b _ _ => lowerSym_symm _ a b
  have hAk : ∀ a b, a < n → b < n → A a b = kfun k x a b := by
    intro a b ha hb
    have he : A a b = kfun k x a b + (if a = b then (0:ℝ) else 0) :=
      kxx_lowerSym k x T 0 hT a b ha hb
    rw [he]
    simp
  have hck : c.kernel = k := by rw [hc]
  have hcx : c.x = x := by rw [hc]
  have hldr : c.cholesky.nrows = n := by
    rw [hc]
    exact hkr
  have hldget_low : ∀ i j, i < n → j < n → j ≤ i → c.cholesky.get i j = L i j := by
    intro i j hi hj hji
    rw [hc]
    show (Mat.ofFun (par_add_diagonal_mut_unchecked T 0).nrows
      (par_add_diagonal_mut_unchecked T 0).ncols _).get i j = L i j
    rw [ofFun_get _ _ _ i j (by omega) (by
      rw [(add_diag_fields T 0).2.1, hTc]
      omega)]
    rw [if_pos hji]
  obtain ⟨M, hM⟩ : ∃ M, k.call x x = Except.ok M := ⟨_, k.call_eq x x hd hd⟩
  obtain ⟨hMr, hMc, hMwf, _, _⟩ := k.call_shape x x M hM
  unfold CompiledGP.var
  rw [hck, hcx, hM]
  show c.var_precomputed x M = _
  unfold CompiledGP.var_precomputed
  rw [hck]
  have hdiagok : k.call_diagonal x = Except.ok (List.replicate x.ncols k.amplitude) := by
    unfold RBF.call_diagonal
    rw [if_neg (by simp only [Mat.shape]; omega)]
    rfl
  rw [hdiagok]
  show (match par_tr_matmul_diag (par_solve_lower_triangular_unchecked c.cholesky M)
      (par_solve_lower_triangular_unchecked c.cholesky M) with
    | Except.error e => Except.error e
    | Except.ok zipped =>
        Except.ok (subZip (List.replicate x.ncols k.amplitude) zipped)) = _
  rw [par_tr_matmul_diag_spec _ _ rfl]
  show Except.ok (subZip (List.replicate x.ncols k.amplitude) _) = _
  congr 1
  have hFr : (par_solve_lower_triangular_unchecked c.cholesky M).nrows = n := hMr
  have hFc : (par_solve_lower_triangular_unchecked c.cholesky M).ncols = n := hMc
  have hFget : ∀ t cc, t < n → cc < n →
      (par_solve_lower_triangular_unchecked c.cholesky M).get t cc = L cc t := by
    intro t cc ht hcc
    rw [par_solve_get c.cholesky M (by omega) hMwf (by omega) t cc (by omega) (by omega)]
    refine lower_solve_unique (fun p q => c.cholesky.get p q) n
      (fun i hi => by
        show c.cholesky.get i i ≠ 0
        rw [hldget_low i i hi hi (Nat.le_refl i)]
        exact hdiagnz i hi)
      (forwardSubst (fun p q => c.cholesky.get p q) (fun p => M.get p cc))
      (fun r => L cc r) ?_ t ht
    intro i hi
    rw [forwardSubst_solves (fun p q => c.cholesky.get p q) (fun p => M.get p cc) i (by
      show c.cholesky.get i i ≠ 0
      rw [hldget_low i i hi hi (Nat.le_refl i)]
      exact hdiagnz i hi)]
    have hstep2 : ∑ r ∈ Finset.range (i + 1), c.cholesky.get i r * L cc r
        = ∑ r ∈ Finset.range (i + 1), L i r * L cc r :=
      Finset.sum_congr rfl (fun r hr => by
        rw [hldget_low i r hi (by
          have := Finset.mem_range.mp hr
          omega) (by
          have := Finset.mem_range.mp hr
          omega)])
    rw [hstep2]
    have htail : ∑ r ∈ Finset.range n, L i r * L cc r
        = ∑ r ∈ Finset.range (i + 1), L i r * L cc r :=
      sum_range_of_tail_zero _ (i + 1) n (by omega) (fun r hr1 hr2 => by
        have hz : L i r = 0 := cholL_lt A i r (by omega)
        rw [hz]
        ring)
    rw [← htail]
    have hmul : ∑ r ∈ Finset.range n, L i r * L cc r = A i cc :=
      cholL_mul_sym A n i cc hi hcc hsym hposv
    rw [hmul, hAk i cc hi hcc, kfun_comm]
    exact k.call_get_sq x M hM i cc hi hcc
  have hzrep : (List.range (par_solve_lower_triangular_unchecked c.cholesky M).ncols).map
      (fun cc => ∑ t ∈ Finset.range
        (min (par_solve_lower_triangular_unchecked c.cholesky M).nrows
          (par_solve_lower_triangular_unchecked c.cholesky M).nrows),
        (par_solve_lower_triangular_unchecked c.cholesky M).get t cc
          * (par_solve_lower_triangular_unchecked c.cholesky M).get t cc)
      = List.replicate x.ncols k.amplitude := by
    apply List.ext_getElem
    · simp only [List.length_map, List.length_range, List.length_replicate, hFc]
    intro p h1 h2
    rw [List.getElem_map, List.getElem_range, List.getElem_replicate]
    have hp : p < n := by
      simp only [List.length_map, List.length_range, hFc] at h1
      omega
    rw [min_self]
    have hcongr : ∀ t ∈ Finset.range n,
        (par_solve_lower_triangular_unchecked c.cholesky M).get t p
          * (par_solve_lower_triangular_unchecked c.cholesky M).get t p
        = L p t * L p t := by
      intro t ht
      rw [hFget t p (Finset.mem_range.mp ht) hp]
    rw [hFr, Finset.sum_congr rfl hcongr]
    rw [cholL_mul_sym A n p p hp hp hsym hposv]
    rw [hAk p p hp hp, kfun_self]
  rw [hzrep]
  unfold subZip
  rw [List.drop_of_length_le (by simp)]
  rw [List.append_nil]
  apply List.ext_getElem
  · simp
  intro p h1 h2
  rw [List.getElem_zipWith, List.getElem_replicate, List.getElem_replicate]
  ring

/-- Witness for C4: the 1-point noiseless GP with gamma = [-1/2], amplitude 1,
X = [[0]], y = [2] compiles and has zero posterior variance at the training
input. -/
theorem C4_noiseless_variance_witness :
    ∃ c, (GP.new ⟨[-(1/2 : ℝ)], 1⟩ 0).compile ⟨1, 1, [0]⟩ [2] = Except.ok c
      ∧ c.var ⟨1, 1, [0]⟩ = Except.ok (List.replicate 1 (0:ℝ)) := by
  obtain ⟨T, hT⟩ :=
    RBF.call_triangular_ok ⟨[-(1/2 : ℝ)], 1⟩ ⟨1, 1, [0]⟩ TriangleSide.LOWER rfl
  have hTr := (RBF.call_triangular_shape _ _ _ _ hT).1
  have hn : (par_add_diagonal_mut_unchecked T 0).nrows = 1 := by
    rw [(add_diag_fields T 0).1, hTr]
  have hs : CholSuccess (par_add_diagonal_mut_unchecked T 0).lowerSym
      (par_add_diagonal_mut_unchecked T 0).nrows := by
    intro j hj
    rw [hn] at hj
    have hj0 : j = 0 := by omega
    subst hj0
    rw [cholPivot]
    simp only [Finset.range_zero, Finset.sum_empty]
    have hA := kxx_lowerSym ⟨[-(1/2 : ℝ)], 1⟩ ⟨1, 1, [0]⟩ T 0 hT 0 0
      (by norm_num) (by norm_num)
    rw [hA, kfun_self]
    norm_num
  have hcomp := compile_ok_of ⟨[-(1/2 : ℝ)], 1⟩ 0 ⟨1, 1, [0]⟩ [2] rfl T hT hs
  exact ⟨_, hcomp, C4_noiseless_variance _ _ _ _ (by norm_num) hcomp⟩

/-! ### Positive definiteness implies Cholesky success -/

theorem double_sum_restrict (f : Nat → Nat → ℝ) (v : Nat → ℝ) (m n : Nat) (hmn : m ≤ n)
    (hz : ∀ t, m ≤ t → v t = 0) :
    ∑ a ∈ Finset.range n, ∑ b ∈ Finset.range n, v a * v b * f a b
      = ∑ a ∈ Finset.range m, ∑ b ∈ Finset.range m, v a * v b * f a b := by
  rw [sum_range_of_tail_zero (fun a => ∑ b ∈ Finset.range n, v a * v b * f a b) m n hmn
    (fun a ha1 ha2 => by
      apply Finset.sum_eq_zero
      intro b _
      rw [hz a ha1]
      ring)]
  apply Finset.sum_congr rfl
  intro a ha
  exact sum_range_of_tail_zero (fun b => v a * v b * f a b) m n hmn
    (fun b hb1 hb2 => by
      show v a * v b * f a b = 0
      rw [hz b hb1]
      ring)

/-- If the symmetric matrix A is positive-definite as a quadratic form on the
first n coordinates, then every Cholesky pivot is strictly positive. -/
theorem posdef_cholSuccess (A : Nat → Nat → ℝ) (n : Nat)
    (hsym : ∀ a b, a < n → b < n → A a b = A b a)
    (hpd : ∀ v : Nat → ℝ, (∃ t, t < n ∧ v t ≠ 0) → (∀ t, n ≤ t → v t = 0) →
      0 < ∑ a ∈ Finset.range n, ∑ b ∈ Finset.range n, v a * v b * A a b) :
    CholSuccess A n := by
  intro j
  induction j using Nat.strong_induction_on with
  | _ j ih =>
    intro hjn
    have hprev : ∀ t, t < j → 0 < cholPivot A t := fun t ht => ih t ht (by omega)
    have hdiag : ∀ t, t < j → cholL A t t ≠ 0 :=
      fun t ht => (cholPivot_pos_diag A t (hprev t ht)).ne'
    set L := cholL A with hL
    set w : Nat → ℝ := backSubst L j (fun t => -(L j t)) with hw
    set v : Nat → ℝ := fun t => if t < j then w t else if t = j then 1 else 0 with hv
    have hva : ∀ a, a < j → v a = w a := by
      intro a ha
      show (if a < j then w a else if a = j then 1 else 0) = w a
      rw [if_pos ha]
    have hvj : v j = 1 := by
      show (if j < j then w j else if j = j then 1 else 0) = 1
      rw [if_neg (by omega), if_pos rfl]
    have hvz : ∀ t, j + 1 ≤ t → v t = 0 := by
      intro t ht
      show (if t < j then w t else if t = j then 1 else 0) = 0
      rw [if_neg (by omega), if_neg (by omega)]
    have hQpos := hpd v ⟨j, hjn, by rw [hvj]; norm_num⟩ (fun t ht => hvz t (by omega))
    rw [double_sum_restrict A v (j + 1) n (by omega) hvz] at hQpos
    have hm : ∀ t, t < j → ∑ a ∈ Finset.range j, L a t * w a = -(L j t) := by
      intro t ht
      rw [← Finset.sum_range_add_sum_Ico (fun a => L a t * w a) (le_of_lt ht)]
      rw [Finset.sum_eq_zero (fun a ha => by
        have h2 : L a t = 0 := cholL_lt A a t (Finset.mem_range.mp ha)
        rw [h2]
        ring)]
      rw [zero_add]
      exact backSubst_solves L j (fun t2 => -(L j t2)) t ht (hdiag t ht)
    have hAab : ∀ a b, a < j → b < j → A a b = ∑ kk ∈ Finset.range j, L a kk * L b kk := by
      intro a b ha hb
      exact (cholL_mul_sym A j a b ha hb
        (fun p q hp hq => hsym p q (by omega) (by omega)) hprev).symm
    have hAj : ∀ a, a < j → A a j = ∑ kk ∈ Finset.range j, L j kk * L a kk := by
      intro a ha
      rw [hsym a j (by omega) hjn]
      rw [sum_range_of_tail_zero (fun kk => L j kk * L a kk) (a + 1) j (by omega)
        (fun kk hk1 hk2 => by
          show L j kk * L a kk = 0
          have h2 : L a kk = 0 := cholL_lt A a kk (by omega)
          rw [h2]
          ring)]
      exact (cholL_mul A j a (by omega) (fun t ht => hprev t (by omega))).symm
    have hsplit : ∑ a ∈ Finset.range (j + 1), ∑ b ∈ Finset.range (j + 1), v a * v b * A a b
        = (∑ a ∈ Finset.range j, ∑ b ∈ Finset.range j, w a * w b * A a b)
          + (∑ a ∈ Finset.range j, w a * A a j)
          + (∑ b ∈ Finset.range j, w b * A j b)
          + A j j := by
      rw [Finset.sum_range_succ]
      have houter : ∀ a ∈ Finset.range j,
          ∑ b ∈ Finset.range (j + 1), v a * v b * A a b
          = (∑ b ∈ Finset.range j, w a * w b * A a b) + w a * A a j := by
        intro a ha
        have haj := Finset.mem_range.mp ha
        rw [Finset.sum_range_succ, hva a haj, hvj]
        congr 1
        · exact Finset.sum_congr rfl (fun b hb => by
            rw [hva b (Finset.mem_range.mp hb)])
        · ring
      have hlast : ∑ b ∈ Finset.range (j + 1), v j * v b * A j b
          = (∑ b ∈ Finset.range j, w b * A j b) + A j j := by
        rw [Finset.sum_range_succ, hvj]
        congr 1
        · exact Finset.sum_congr rfl (fun b hb => by
            rw [hva b (Finset.mem_range.mp hb)]
            ring)
        · ring
      rw [hlast, Finset.sum_congr rfl houter, Finset.sum_add_distrib]
      ring
    have hpiece1 : ∑ a ∈ Finset.range j, ∑ b ∈ Finset.range j, w a * w b * A a b
        = ∑ kk ∈ Finset.range j, L j kk * L j kk := by
      calc ∑ a ∈ Finset.range j, ∑ b ∈ Finset.range j, w a * w b * A a b
          = ∑ a ∈ Finset.range j, ∑ b ∈ Finset.range j,
              ∑ kk ∈ Finset.range j, (L a kk * w a) * (L b kk * w b) := by
            apply Finset.sum_congr rfl
            intro a ha
            apply Finset.sum_congr rfl
            intro b hb
            rw [hAab a b (Finset.mem_range.mp ha) (Finset.mem_range.mp hb), Finset.mul_sum]
            apply Finset.sum_congr rfl
            intro kk _
            ring
        _ = ∑ a ∈ Finset.range j, ∑ kk ∈ Finset.range j,
              (L a kk * w a) * (∑ b ∈ Finset.range j, L b kk * w b) := by
            apply Finset.sum_congr rfl
            intro a _
            rw [Finset.sum_comm]
            apply Finset.sum_congr rfl
            intro kk _
            rw [← Finset.mul_sum]
        _ = ∑ kk ∈ Finset.range j,
              (∑ a ∈ Finset.range j, L a kk * w a) * (∑ b ∈ Finset.range j, L b kk * w b) := by
            rw [Finset.sum_comm]
            apply Finset.sum_congr rfl
            intro kk _
            rw [← Finset.sum_mul]
        _ = ∑ kk ∈ Finset.range j, L j kk * L j kk := by
            apply Finset.sum_congr rfl
            intro kk hkk
            rw [hm kk (Finset.mem_range.mp hkk)]
            ring
    have hpiece2 : ∑ a ∈ Finset.range j, w a * A a j
        = -(∑ kk ∈ Finset.range j, L j kk * L j kk) := by
      calc ∑ a ∈ Finset.range j, w a * A a j
          = ∑ a ∈ Finset.range j, ∑ kk ∈ Finset.range j, L j kk * (L a kk * w a) := by
            apply Finset.sum_congr rfl
            intro a ha
            rw [hAj a (Finset.mem_range.mp ha), Finset.mul_sum]
            apply Finset.sum_congr rfl
            intro kk _
            ring
        _ = ∑ kk ∈ Finset.range j, L j kk * (∑ a ∈ Finset.range j, L a kk * w a) := by
            rw [Finset.sum_comm]
            apply Finset.sum_congr rfl
            intro kk _
            rw [← Finset.mul_sum]
        _ = -(∑ kk ∈ Finset.range j, L j kk * L j kk) := by
            rw [← Finset.sum_neg_distrib]
            apply Finset.sum_congr rfl
            intro kk hkk
            rw [hm kk (Finset.mem_range.mp hkk)]
            ring
    have hpiece3 : ∑ b ∈ Finset.range j, w b * A j b
        = -(∑ kk ∈ Finset.range j, L j kk * L j kk) := by
      have hflip : ∀ b, b < j → A j b = A b j :=
        fun b hb => hsym j b hjn (by omega)
      calc ∑ b ∈ Finset.range j, w b * A j b
          = ∑ b ∈ Finset.range j, w b * A b j :=
            Finset.sum_congr rfl (fun b hb => by
              rw [hflip b (Finset.mem_range.mp hb)])
        _ = -(∑ kk ∈ Finset.range j, L j kk * L j kk) := hpiece2
    rw [hsplit, hpiece1, hpiece2, hpiece3] at hQpos
    have hgoal : cholPivot A j = A j j - ∑ kk ∈ Finset.range j, L j kk * L j kk := rfl
    rw [hgoal]
    linarith

/-! ### Positive semidefiniteness of the RBF Gram matrix -/

/-- The zip-map-sum in `call_point` as a Finset range sum over the common length. -/
theorem zipzip_sum_eq (g p q : List ℝ) :
    (((g.zip p).zip q).map
      (fun gxy => (gxy.1.2 - gxy.2) * (gxy.1.2 - gxy.2) * gxy.1.1)).sum
    = ∑ t ∈ Finset.range (min g.length (min p.length q.length)),
        (p.getD t 0 - q.getD t 0) * (p.getD t 0 - q.getD t 0) * g.getD t 0 := by
  induction g generalizing p q with
  | nil => simp
  | cons a g ih =>
    cases p with
    | nil => simp
    | cons b p =>
      cases q with
      | nil => simp
      | cons c2 q =>
        simp only [List.zip_cons_cons, List.map_cons, List.sum_cons]
        rw [ih p q]
        have hmin : min (a :: g).length (min (b :: p).length (c2 :: q).length)
            = min g.length (min p.length q.length) + 1 := by
          simp only [List.length_cons]
          omega
        rw [hmin, Finset.sum_range_succ']
        simp only [List.getD_cons_succ, List.getD_cons_zero]
        ring

/-- Entries of a sliced column, below the row count. -/
theorem col_getD (x : Mat) (i t : Nat) (ht : t < x.nrows) :
    (x.col i).getD t 0 = x.get t i := by
  show ((x.data.drop (i * x.nrows)).take (i * x.nrows + x.nrows - i * x.nrows)).getD t 0 = _
  have hred : i * x.nrows + x.nrows - i * x.nrows = x.nrows := by omega
  rw [hred, getD_drop_take x.data (i * x.nrows) x.nrows t ht]
  rfl

/-- A sliced column of a well-formed matrix has the full row count. -/
theorem col_length (x : Mat) (i : Nat) (hwf : x.Wf) (hi : i < x.ncols) :
    (x.col i).length = x.nrows := by
  show ((x.data.drop (i * x.nrows)).take (i * x.nrows + x.nrows - i * x.nrows)).length = _
  simp only [List.length_take, List.length_drop]
  have hdlen : x.data.length = x.nrows * x.ncols := hwf
  have hb2 : i * x.nrows + x.nrows ≤ x.data.length := by
    have h1 : i * x.nrows + x.nrows = (i + 1) * x.nrows := by ring
    have h2 : (i + 1) * x.nrows ≤ x.ncols * x.nrows := Nat.mul_le_mul_right _ hi
    have h3 : x.ncols * x.nrows = x.nrows * x.ncols := Nat.mul_comm _ _
    omega
  omega

/-- The covariance entry as an explicit exponential of a gamma-weighted sum of
squared coordinate differences. -/
theorem kfun_formula (k : RBF) (x : Mat) (hwf : x.Wf) (hd : x.nrows = k.gamma.length)
    (i j : Nat) (hi : i < x.ncols) (hj : j < x.ncols) :
    kfun k x i j = Real.exp (∑ t ∈ Finset.range k.gamma.length,
      (x.get t i - x.get t j) * (x.get t i - x.get t j) * k.gamma.getD t 0)
      * k.amplitude := by
  unfold kfun RBF.call_point
  rw [zipzip_sum_eq]
  have hli : (x.col i).length = x.nrows := col_length x i hwf hi
  have hlj : (x.col j).length = x.nrows := col_length x j hwf hj
  have hmin : min k.gamma.length (min (x.col i).length (x.col j).length)
      = k.gamma.length := by
    rw [hli, hlj, ← hd]
    omega
  rw [hmin]
  have hsum : (∑ t ∈ Finset.range k.gamma.length,
        ((x.col i).getD t 0 - (x.col j).getD t 0)
          * ((x.col i).getD t 0 - (x.col j).getD t 0) * k.gamma.getD t 0)
      = ∑ t ∈ Finset.range k.gamma.length,
        (x.get t i - x.get t j) * (x.get t i - x.get t j) * k.gamma.getD t 0 := by
    apply Finset.sum_congr rfl
    intro t ht2
    have ht : t < x.nrows := by
      rw [hd]
      exact Finset.mem_range.mp ht2
    rw [col_getD x i t ht, col_getD x j t ht]
  rw [hsum]

/-- Every integer power of a Gram matrix of finite-dimensional dot products is
positive semidefinite as a quadratic form. -/
theorem gram_pow_psd (n d : Nat) (u : Nat → Nat → ℝ) :
    ∀ m : Nat, ∀ w : Nat → ℝ,
      0 ≤ ∑ i ∈ Finset.range n, ∑ j ∈ Finset.range n,
        w i * w j * (∑ t ∈ Finset.range d, u i t * u j t) ^ m := by
  intro m
  induction m with
  | zero =>
    intro w
    have hsq : ∑ i ∈ Finset.range n, ∑ j ∈ Finset.range n,
          w i * w j * (∑ t ∈ Finset.range d, u i t * u j t) ^ 0
        = (∑ i ∈ Finset.range n, w i) * (∑ j ∈ Finset.range n, w j) := by
      rw [Finset.sum_mul]
      apply Finset.sum_congr rfl
      intro i _
      rw [Finset.mul_sum]
      apply Finset.sum_congr rfl
      intro j _
      ring
    rw [hsq]
    exact mul_self_nonneg _
  | succ m ih =>
    intro w
    have hswap : ∑ i ∈ Finset.range n, ∑ j ∈ Finset.range n,
          w i * w j * (∑ t ∈ Finset.range d, u i t * u j t) ^ (m + 1)
        = ∑ t ∈ Finset.range d, ∑ i ∈ Finset.range n, ∑ j ∈ Finset.range n,
            (w i * u i t) * (w j * u j t)
              * (∑ s ∈ Finset.range d, u i s * u j s) ^ m := by
      calc ∑ i ∈ Finset.range n, ∑ j ∈ Finset.range n,
            w i * w j * (∑ t ∈ Finset.range d, u i t * u j t) ^ (m + 1)
          = ∑ i ∈ Finset.range n, ∑ j ∈ Finset.range n, ∑ t ∈ Finset.range d,
              (w i * u i t) * (w j * u j t)
                * (∑ s ∈ Finset.range d, u i s * u j s) ^ m := by
            apply Finset.sum_congr rfl
            intro i _
            apply Finset.sum_congr rfl
            intro j _
            rw [pow_succ, Finset.mul_sum, Finset.mul_sum]
            apply Finset.sum_congr rfl
            intro t _
            ring
        _ = ∑ i ∈ Finset.range n, ∑ t ∈ Finset.range d, ∑ j ∈ Finset.range n,
              (w i * u i t) * (w j * u j t)
                * (∑ s ∈ Finset.range d, u i s * u j s) ^ m := by
            apply Finset.sum_congr rfl
            intro i _
            exact Finset.sum_comm
        _ = ∑ t ∈ Finset.range d, ∑ i ∈ Finset.range n, ∑ j ∈ Finset.range n,
              (w i * u i t) * (w j * u j t)
                * (∑ s ∈ Finset.range d, u i s * u j s) ^ m :=
            Finset.sum_comm
    rw [hswap]
    apply Finset.sum_nonneg
    intro t _
    exact ih (fun a => w a * u a t)

/-- The real exponential as its power series, in tsum form. -/
theorem real_exp_tsum (z : ℝ) :
    Real.exp z = tsum (fun m : Nat => z ^ m / (Nat.factorial m)) := by
  rw [Real.exp_eq_exp_ℝ, NormedSpace.exp_eq_tsum_div]

/-- The entrywise exponential of a Gram matrix of dot products is positive
semidefinite: expand exp into its power series and use `gram_pow_psd`. -/
theorem gram_exp_psd (n d : Nat) (u : Nat → Nat → ℝ) (w : Nat → ℝ) :
    0 ≤ ∑ i ∈ Finset.range n, ∑ j ∈ Finset.range n,
      w i * w j * Real.exp (∑ t ∈ Finset.range d, u i t * u j t) := by
  have hsumm : ∀ i j : Nat,
      Summable (fun m : Nat =>
        w i * w j * ((∑ t ∈ Finset.range d, u i t * u j t) ^ m / (Nat.factorial m))) :=
    fun i j => (Real.summable_pow_div_factorial _).mul_left _
  have hexp : ∀ i j : Nat,
      w i * w j * Real.exp (∑ t ∈ Finset.range d, u i t * u j t)
      = tsum (fun m : Nat =>
          w i * w j * ((∑ t ∈ Finset.range d, u i t * u j t) ^ m / (Nat.factorial m))) := by
    intro i j
    rw [real_exp_tsum, ← tsum_mul_left]
  have htotal : ∑ i ∈ Finset.range n, ∑ j ∈ Finset.range n,
        w i * w j * Real.exp (∑ t ∈ Finset.range d, u i t * u j t)
      = tsum (fun m : Nat => ∑ i ∈ Finset.range n, ∑ j ∈ Finset.range n,
          w i * w j * ((∑ t ∈ Finset.range d, u i t * u j t) ^ m / (Nat.factorial m))) := by
    calc ∑ i ∈ Finset.range n, ∑ j ∈ Finset.range n,
          w i * w j * Real.exp (∑ t ∈ Finset.range d, u i t * u j t)
        = ∑ i ∈ Finset.range n, tsum (fun m : Nat => ∑ j ∈ Finset.range n,
            w i * w j * ((∑ t ∈ Finset.range d, u i t * u j t) ^ m / (Nat.factorial m))) := by
          apply Finset.sum_congr rfl
          intro i _
          rw [Finset.sum_congr rfl (fun j _ => hexp i j)]
          exact (tsum_sum (fun j _ => hsumm i j)).symm
      _ = tsum (fun m : Nat => ∑ i ∈ Finset.range n, ∑ j ∈ Finset.range n,
            w i * w j * ((∑ t ∈ Finset.range d, u i t * u j t) ^ m / (Nat.factorial m))) :=
          (tsum_sum (fun i _ => summable_sum (fun j _ => hsumm i j))).symm
  rw [htotal]
  apply tsum_nonneg
  intro m
  have hrw : ∑ i ∈ Finset.range n, ∑ j ∈ Finset.range n,
        w i * w j * ((∑ t ∈ Finset.range d, u i t * u j t) ^ m / (Nat.factorial m))
      = (∑ i ∈ Finset.range n, ∑ j ∈ Finset.range n,
          w i * w j * (∑ t ∈ Finset.range d, u i t * u j t) ^ m)
        * ((Nat.factorial m : ℝ))⁻¹ := by
    rw [Finset.sum_mul]
    apply Finset.sum_congr rfl
    intro i _
    rw [Finset.sum_mul]
    apply Finset.sum_congr rfl
    intro j _
    ring
  rw [hrw]
  exact mul_nonneg (gram_pow_psd n d u m w) (inv_nonneg.mpr (Nat.cast_nonneg _))

/-- The negated gamma weights of an RBF kernel. -/
noncomputable def rbfC (k : RBF) (t : Nat) : ℝ := -(k.gamma.getD t 0)

/-- Feature map coordinates that linearize the cross terms of the RBF exponent. -/
noncomputable def rbfU (k : RBF) (x : Mat) (i t : Nat) : ℝ :=
  Real.sqrt (2 * rbfC k t) * x.get t i

/-- The diagonal part of the RBF exponent for one column. -/
noncomputable def rbfP (k : RBF) (x : Mat) (i : Nat) : ℝ :=
  ∑ t ∈ Finset.range k.gamma.length, rbfC k t * (x.get t i * x.get t i)

/-- The RBF Gram matrix is positive semidefinite whenever every gamma entry is
nonpositive and the amplitude is nonnegative (both hold for every kernel built
by `RBF::new`). -/
theorem kernel_psd (k : RBF) (x : Mat) (hwf : x.Wf) (hd : x.nrows = k.gamma.length)
    (hg : ∀ g ∈ k.gamma, g ≤ 0) (hamp : 0 ≤ k.amplitude) (v : Nat → ℝ) :
    0 ≤ ∑ i ∈ Finset.range x.ncols, ∑ j ∈ Finset.range x.ncols,
      v i * v j * kfun k x i j := by
  have hcnn : ∀ t, t < k.gamma.length → 0 ≤ rbfC k t := by
    intro t ht
    have hmem : k.gamma.getD t 0 ∈ k.gamma := by
      rw [getD_lt _ _ _ ht]
      exact List.getElem_mem _
    have h1 := hg _ hmem
    show 0 ≤ -(k.gamma.getD t 0)
    linarith
  have huu : ∀ i j t, t < k.gamma.length →
      rbfU k x i t * rbfU k x j t = 2 * rbfC k t * (x.get t i * x.get t j) := by
    intro i j t ht
    show (Real.sqrt (2 * rbfC k t) * x.get t i)
        * (Real.sqrt (2 * rbfC k t) * x.get t j) = _
    have h2 : Real.sqrt (2 * rbfC k t) * Real.sqrt (2 * rbfC k t) = 2 * rbfC k t :=
      Real.mul_self_sqrt (by have := hcnn t ht; linarith)
    calc (Real.sqrt (2 * rbfC k t) * x.get t i)
          * (Real.sqrt (2 * rbfC k t) * x.get t j)
        = (Real.sqrt (2 * rbfC k t) * Real.sqrt (2 * rbfC k t))
            * (x.get t i * x.get t j) := by ring
      _ = 2 * rbfC k t * (x.get t i * x.get t j) := by rw [h2]
  have hker : ∀ i j, i < x.ncols → j < x.ncols →
      kfun k x i j = (Real.exp (-(rbfP k x i)) * Real.exp (-(rbfP k x j)) * k.amplitude)
        * Real.exp (∑ t ∈ Finset.range k.gamma.length, rbfU k x i t * rbfU k x j t) := by
    intro i j hi hj
    rw [kfun_formula k x hwf hd i j hi hj]
    have hpt : ∀ t ∈ Finset.range k.gamma.length,
        (x.get t i - x.get t j) * (x.get t i - x.get t j) * k.gamma.getD t 0
        = -(rbfC k t * (x.get t i * x.get t i))
          + -(rbfC k t * (x.get t j * x.get t j))
          + rbfU k x i t * rbfU k x j t := by
      intro t ht2
      rw [huu i j t (Finset.mem_range.mp ht2)]
      have hct : k.gamma.getD t 0 = -(rbfC k t) := by
        show k.gamma.getD t 0 = -(-(k.gamma.getD t 0))
        ring
      rw [hct]
      ring
    have hsum : (∑ t ∈ Finset.range k.gamma.length,
          (x.get t i - x.get t j) * (x.get t i - x.get t j) * k.gamma.getD t 0)
        = -(rbfP k x i) + -(rbfP k x j)
          + ∑ t ∈ Finset.range k.gamma.length, rbfU k x i t * rbfU k x j t := by
      rw [Finset.sum_congr rfl hpt, Finset.sum_add_distrib, Finset.sum_add_distrib,
        Finset.sum_neg_distrib, Finset.sum_neg_distrib]
      rfl
    rw [hsum, Real.exp_add, Real.exp_add]
    ring
  have hfinal : ∑ i ∈ Finset.range x.ncols, ∑ j ∈ Finset.range x.ncols,
        v i * v j * kfun k x i j
      = k.amplitude * ∑ i ∈ Finset.range x.ncols, ∑ j ∈ Finset.range x.ncols,
          (v i * Real.exp (-(rbfP k x i))) * (v j * Real.exp (-(rbfP k x j)))
            * Real.exp (∑ t ∈ Finset.range k.gamma.length, rbfU k x i t * rbfU k x j t) := by
    rw [Finset.mul_sum]
    apply Finset.sum_congr rfl
    intro i hi2
    rw [Finset.mul_sum]
    apply Finset.sum_congr rfl
    intro j hj2
    rw [hker i j (Finset.mem_range.mp hi2) (Finset.mem_range.mp hj2)]
    ring
  rw [hfinal]
  exact mul_nonneg hamp
    (gram_exp_psd x.ncols k.gamma.length (rbfU k x)
      (fun i => v i * Real.exp (-(rbfP k x i))))

/-! ### Claim C3: positive noise guarantees a successful compile -/

/-- With positive noise the regularized matrix is positive definite, so
nalgebra's Cholesky succeeds. -/
theorem noise_cholSuccess (k : RBF) (x T : Mat) (noise : ℝ)
    (hwf : x.Wf) (hd : x.nrows = k.gamma.length)
    (hg : ∀ g ∈ k.gamma, g ≤ 0) (hamp : 0 ≤ k.amplitude) (hnoise : 0 < noise)
    (hT : k.call_triangular x TriangleSide.LOWER = Except.ok T) :
    CholSuccess (par_add_diagonal_mut_unchecked T noise).lowerSym
      (par_add_diagonal_mut_unchecked T noise).nrows := by
  obtain ⟨hTr, hTc, hTwf, _⟩ := k.call_triangular_shape x T _ hT
  have hkr : (par_add_diagonal_mut_unchecked T noise).nrows = x.ncols := by
    rw [(add_diag_fields T noise).1, hTr]
  rw [hkr]
  apply posdef_cholSuccess
  · intro a b ha hb
    exact lowerSym_symm _ a b
  · intro v hex hzero
    have hAeq : ∀ a b, a < x.ncols → b < x.ncols →
        (par_add_diagonal_mut_unchecked T noise).lowerSym a b
        = kfun k x a b + (if a = b then noise else 0) :=
      fun a b ha hb => kxx_lowerSym k x T noise hT a b ha hb
    have hinner : ∀ a, a < x.ncols →
        ∑ b ∈ Finset.range x.ncols,
          v a * v b * (par_add_diagonal_mut_unchecked T noise).lowerSym a b
        = (∑ b ∈ Finset.range x.ncols, v a * v b * kfun k x a b)
          + v a * v a * noise := by
      intro a ha
      have hsp : ∀ b ∈ Finset.range x.ncols,
          v a * v b * (par_add_diagonal_mut_unchecked T noise).lowerSym a b
          = v a * v b * kfun k x a b + (if a = b then v a * v b * noise else 0) := by
        intro b hb2
        rw [hAeq a b ha (Finset.mem_range.mp hb2)]
        by_cases hab : a = b
        · rw [if_pos hab, if_pos hab]
          ring
        · rw [if_neg hab, if_neg hab]
          ring
      rw [Finset.sum_congr rfl hsp, Finset.sum_add_distrib]
      congr 1
      rw [Finset.sum_ite_eq (Finset.range x.ncols) a (fun b => v a * v b * noise)]
      rw [if_pos (Finset.mem_range.mpr ha)]
    have hrw : ∑ a ∈ Finset.range x.ncols, ∑ b ∈ Finset.range x.ncols,
          v a * v b * (par_add_diagonal_mut_unchecked T noise).lowerSym a b
        = (∑ a ∈ Finset.range x.ncols, ∑ b ∈ Finset.range x.ncols,
            v a * v b * kfun k x a b)
          + noise * ∑ a ∈ Finset.range x.ncols, v a * v a := by
      rw [Finset.sum_congr rfl (fun a ha2 => hinner a (Finset.mem_range.mp ha2)),
        Finset.sum_add_distrib]
      congr 1
      rw [Finset.mul_sum]
      apply Finset.sum_congr rfl
      intro a _
      ring
    rw [hrw]
    have h1 : 0 ≤ ∑ a ∈ Finset.range x.ncols, ∑ b ∈ Finset.range x.ncols,
        v a * v b * kfun k x a b := kernel_psd k x hwf hd hg hamp v
    have h2 : 0 < ∑ a ∈ Finset.range x.ncols, v a * v a := by
      obtain ⟨t, htn, htnz⟩ := hex
      apply Finset.sum_pos'
      · intro a _
        exact mul_self_nonneg _
      · exact ⟨t, Finset.mem_range.mpr htn, mul_self_pos.mpr htnz⟩
    have h3 : 0 < noise * ∑ a ∈ Finset.range x.ncols, v a * v a := mul_pos hnoise h2
    linarith

/-- C3: for every well-formed pair (X, y) with n(X) = |y|, row count matching
the kernel dimension, and noise > 0, `GP::compile` succeeds and the returned
dual weights alpha satisfy (K + noise·I)·alpha = y exactly over the reals
(stronger than the approximate equality claimed), where K is the training
covariance matrix. Stated for an arbitrary kernel built by `RBF::new`. -/
theorem C3_positive_noise_compile (ls : List ℝ) (sigma noise : ℝ) (x : Mat) (y : List ℝ)
    (hwf : x.Wf) (hd : x.nrows = ls.length) (hxy : x.ncols = y.length)
    (hnoise : 0 < noise) :
    ∃ c, (GP.new (RBF.new ls sigma) noise).compile x y = Except.ok c
      ∧ ∀ i, i < x.ncols →
          ∑ j ∈ Finset.range x.ncols,
            (kfun (RBF.new ls sigma) x i j + (if i = j then noise else 0))
              * c.alpha.getD j 0
            = y.getD i 0 := by
  set k := RBF.new ls sigma with hk
  have hd2 : x.nrows = k.gamma.length := by
    rw [hk]
    show x.nrows = (RBF.gammaOf ls).length
    rw [RBF.gammaOf, List.length_map]
    exact hd
  have hg : ∀ g ∈ k.gamma, g ≤ 0 := by
    intro g hgm
    rw [hk] at hgm
    obtain ⟨v, hv, hveq⟩ := List.mem_map.mp hgm
    rcases eq_or_lt_of_le (mul_self_nonneg v) with heq | hlt
    · rw [← hveq, ← heq, div_zero]
    · rw [← hveq]
      exact le_of_lt (div_neg_of_neg_of_pos (by norm_num) hlt)
  have hamp : 0 ≤ k.amplitude := mul_self_nonneg sigma
  obtain ⟨T, hT⟩ := k.call_triangular_ok x TriangleSide.LOWER hd2
  have hs := noise_cholSuccess k x T noise hwf hd2 hg hamp hnoise hT
  have hcomp := compile_ok_of k noise x y hxy T hT hs
  exact ⟨_, hcomp, compile_alpha k noise x y _ hcomp⟩

/-- C3 witness: a concrete one-point training set with unit length scale,
unit sigma and noise 1 compiles, and its dual weights solve the regularized
system exactly. -/
theorem C3_positive_noise_compile_witness :
    ∃ c, (GP.new (RBF.new [(1:ℝ)] 1) 1).compile ⟨1, 1, [0]⟩ [2] = Except.ok c
      ∧ ∀ i, i < (⟨1, 1, [(0:ℝ)]⟩ : Mat).ncols →
          ∑ j ∈ Finset.range (⟨1, 1, [(0:ℝ)]⟩ : Mat).ncols,
            (kfun (RBF.new [(1:ℝ)] 1) ⟨1, 1, [0]⟩ i j + (if i = j then 1 else 0))
              * c.alpha.getD j 0
            = [(2:ℝ)].getD i 0 :=
  C3_positive_noise_compile [(1:ℝ)] 1 1 ⟨1, 1, [0]⟩ [2] rfl rfl rfl (by norm_num)

end GPRS
